import Mathlib

/-!
Shallow embedding of the SAM-to-pairwise-alignment renderer from
`cmd/sam2pairwise.go` (functions `parseCigar`, `parseMDTag`, `samToPairwise`,
`applyColor` and the per-record field extraction in `processSAMStdin`).

Modelling conventions:
* Go strings are modelled as `List Char` (all inputs are ASCII; Go's
  `for _, c := range s` iterates runes, which coincides with the char list).
* Go `int` counters that are only ever non-negative are modelled as `Nat`.
  `strconv.Atoi` on a digit string is the fold `10*acc + digit`; Go's
  overflow failure for astronomically long digit strings is not modelled.
* Error values carry constant message strings; the Go code interpolates
  positions and tag text into its messages, which we do not reproduce.
* Writes to `os.Stderr` (warnings) have no effect on the returned strings
  and are not modelled.
* The three output builders are modelled as lists of `TrackItem`s.  A
  `TrackItem.cell b h` records one call `applyColor(builder, b, h)`;
  `TrackItem.condensed e m` records the direct builder writes of the
  condensed long-intron block (`<darkgrey>` + 5 edge chars + middle +
  5 edge chars + `</darkgrey>`).  `applyColor` itself is modelled below,
  producing the literal markup text, so the concrete colored strings are
  recoverable from the items; the claims are stated about the plain
  characters (`plainChars`) and the highlight flags, i.e. about the output
  "ignoring embedded styling markup".
-/

/-- Character class `'0'..'9'`, as tested by the Go parsers
(`char >= '0' && char <= '9'`). -/
def isDigitChar (c : Char) : Bool := '0' ≤ c && c ≤ '9'

/-- Character class for bases in MD tags, as tested by `parseMDTag`
(`(char >= 'A' && char <= 'Z') || (char >= 'a' && char <= 'z')`). -/
def isLetterChar (c : Char) : Bool :=
  ('A' ≤ c && c ≤ 'Z') || ('a' ≤ c && c ≤ 'z')

/-- `strconv.Atoi` on a (non-empty) digit string: left fold of
`10 * acc + digit`. -/
def digitsVal (ds : List Char) : Nat :=
  ds.foldl (fun a c => 10 * a + (c.toNat - 48)) 0

/-- The character for one decimal digit value. -/
def digitChar (d : Nat) : Char := Char.ofNat (d + 48)

/-- Big-endian decimal digits of `n` (auxiliary, fueled so that it is
structurally recursive; `encodeNat` supplies sufficient fuel). -/
def encodeNatAux : Nat → Nat → List Char
  | 0, _ => []
  | fuel + 1, n =>
    if n = 0 then [] else encodeNatAux fuel (n / 10) ++ [digitChar (n % 10)]

/-- Canonical decimal representation of a `Nat` (what `fmt.Sprintf "%d"`
and `strconv.Itoa` print). -/
def encodeNat (n : Nat) : List Char :=
  if n = 0 then ['0'] else encodeNatAux n n

/-- `CigarOp` from the Go source: one CIGAR operation (length and kind). -/
structure CigarOp where
  length : Nat
  op : Char
deriving DecidableEq, Repr

instance : Inhabited CigarOp := ⟨⟨0, 'M'⟩⟩

/-- `strings.ContainsRune("MIDNSHP=X", c)`. -/
def isCigarOpChar (c : Char) : Bool :=
  c = 'M' || c = 'I' || c = 'D' || c = 'N' || c = 'S' || c = 'H' || c = 'P' ||
  c = '=' || c = 'X'

/-- Loop body of `parseCigar`: scan characters, accumulating the pending
length digits in `lenAcc` and the parsed operations in `acc`. -/
def parseCigarAux : List Char → List Char → List CigarOp →
    Except String (List CigarOp)
  | [], lenAcc, acc =>
    -- after the loop: leftover digits without an operation type are an error
    if lenAcc.isEmpty then .ok acc
    else .error "CIGAR string ends with an incomplete operation"
  | c :: rest, lenAcc, acc =>
    if isDigitChar c then parseCigarAux rest (lenAcc ++ [c]) acc
    else if isCigarOpChar c then
      if lenAcc.isEmpty then .error "CIGAR operation has no preceding length"
      else
        let length := digitsVal lenAcc
        -- Go: `if length <= 0` (int); lengths parsed from digits are ≥ 0
        if length = 0 then .error "invalid non-positive CIGAR length"
        else parseCigarAux rest [] (acc ++ [⟨length, c⟩])
    else .error "invalid character in CIGAR string"

/-- `parseCigar` from the Go source. -/
def parseCigar (cigar : List Char) : Except String (List CigarOp) :=
  if cigar = ['*'] ∨ cigar = [] then .ok []
  else parseCigarAux cigar [] []

/-- `MDTagEntry` from the Go source: `Num` (match count), `Changes`
(reference bases for a mismatch or deletion), `IsDel`. -/
structure MDTagEntry where
  num : Nat
  changes : List Char
  isDel : Bool
deriving DecidableEq, Repr

instance : Inhabited MDTagEntry := ⟨⟨0, [], false⟩⟩

/-- The four states of the `parseMDTag` state machine
(`"num"`, `"change"`, `"del_start"`, `"del"`). -/
inductive MDState
  | num
  | change
  | delStart
  | del
deriving DecidableEq, Repr

/-- `addNumEntry` from `parseMDTag`: flush the pending digit accumulator as
a match-count entry (nothing is added when no digits are pending). -/
def flushNum (numAcc : List Char) : List MDTagEntry :=
  if numAcc.isEmpty then [] else [⟨digitsVal numAcc, [], false⟩]

/-- The character loop of `parseMDTag`.  `numAcc` is `numStr`, `changeAcc`
is `changeStr`, `acc` is `entries`.  The Go loop's `isLastChar` flush is the
`[]` case here (flush according to the state after the last character). -/
def parseMDTagAux : List Char → MDState → List Char → List Char →
    List MDTagEntry → Except String (List MDTagEntry)
  | [], st, numAcc, changeAcc, acc =>
    match st with
    | .num => .ok (acc ++ flushNum numAcc)
    | .change => .error "MD tag cannot end immediately after a mismatch base"
    | .del =>
      if changeAcc.isEmpty then .error "empty deletion sequence in MD tag"
      else .ok (acc ++ [⟨0, changeAcc, true⟩])
    | .delStart => .error "MD tag cannot end with deletion start"
  | c :: rest, st, numAcc, changeAcc, acc =>
    match st with
    | .num =>
      if isDigitChar c then parseMDTagAux rest .num (numAcc ++ [c]) changeAcc acc
      else
        -- non-digit ends the number: addNumEntry, then dispatch on c
        if c = '^' then parseMDTagAux rest .delStart [] changeAcc (acc ++ flushNum numAcc)
        else if isLetterChar c then
          parseMDTagAux rest .change [] [c] (acc ++ flushNum numAcc)
        else .error "unexpected character after number in MD tag"
    | .change =>
      -- addMismatchEntry: a mismatch must be exactly one reference base
      if changeAcc.length = 1 then
        if isDigitChar c then
          parseMDTagAux rest .num [c] [] (acc ++ [⟨0, changeAcc, false⟩])
        else if c = '^' then
          parseMDTagAux rest .delStart [] [] (acc ++ [⟨0, changeAcc, false⟩])
        else .error "unexpected character after mismatch base in MD tag"
      else .error "invalid mismatch sequence in MD tag"
    | .delStart =>
      if isLetterChar c then
        parseMDTagAux rest .del numAcc (changeAcc ++ [c]) acc
      else .error "expected base after deletion start in MD tag"
    | .del =>
      if isLetterChar c then
        parseMDTagAux rest .del numAcc (changeAcc ++ [c]) acc
      else
        -- addDelEntry, then dispatch on c
        if changeAcc.isEmpty then .error "empty deletion sequence in MD tag"
        else if isDigitChar c then
          parseMDTagAux rest .num [c] [] (acc ++ [⟨0, changeAcc, true⟩])
        else if c = '^' then
          parseMDTagAux rest .delStart [] [] (acc ++ [⟨0, changeAcc, true⟩])
        else .error "unexpected character after deletion sequence in MD tag"

/-- `parseMDTag` from the Go source (the empty tag yields no entries,
exactly as the initial state's final flush does). -/
def parseMDTag (mdTag : List Char) : Except String (List MDTagEntry) :=
  parseMDTagAux mdTag .num [] [] []

/-- `minIntronCompressLength` from the Go source. -/
def minIntronCompressLength : Nat := 20

/-- `condensedNSEdgeLength` from the Go source. -/
def condensedNSEdgeLength : Nat := 5

/-- One unit of builder output: either a single character passed through
`applyColor` with its highlight flag, or the condensed long-intron block
(edge characters and middle annotation, wrapped in darkgrey markup by the
rendering). -/
inductive TrackItem
  | cell (base : Char) (highlight : Bool)
  | condensed (edge : Char) (middle : List Char)
deriving DecidableEq, Repr

/-- The plain characters of a track item, i.e. the emitted text with all
styling markup stripped. -/
def plainChars : TrackItem → List Char
  | .cell b _ => [b]
  | .condensed e m =>
    List.replicate condensedNSEdgeLength e ++ m ++
      List.replicate condensedNSEdgeLength e

/-- Plain characters of a whole track (styling markup ignored). -/
def trackChars (items : List TrackItem) : List Char :=
  (items.map plainChars).flatten

/-- `applyColor` from the Go source: the literal text appended to a builder
for one base and highlight flag.  The `tml.Sprintf` darkgrey wrapping for
`N`/`n`/`.` is modelled as the literal tag text. -/
def applyColor (base : Char) (shouldHighlight : Bool) : List Char :=
  let color : List Char :=
    if shouldHighlight then
      if base = 'A' ∨ base = 'a' then "red".toList
      else if base = 'T' ∨ base = 't' then "green".toList
      else if base = 'G' ∨ base = 'g' then "yellow".toList
      else if base = 'C' ∨ base = 'c' then "blue".toList
      else if base = '-' then "black".toList
      else if base = '*' then "magenta".toList
      else []
    else []
  if base = 'A' ∨ base = 'a' ∨ base = 'T' ∨ base = 't' ∨ base = 'G' ∨
      base = 'g' ∨ base = 'C' ∨ base = 'c' then
    if shouldHighlight ∧ color ≠ [] then
      "<bg-".toList ++ color ++ ">".toList ++ [base] ++
        "</bg-".toList ++ color ++ ">".toList
    else [base]
  else if base = '-' then
    if shouldHighlight ∧ color = "black".toList then
      "<bg-black>".toList ++ [base] ++ "</bg-black>".toList
    else [base]
  else if base = '*' then
    if shouldHighlight ∧ color = "magenta".toList then
      "<bg-magenta>".toList ++ [base] ++ "</bg-magenta>".toList
    else [base]
  else if base = 'N' ∨ base = 'n' ∨ base = '.' then
    "<darkgrey>".toList ++ [base] ++ "</darkgrey>".toList
  else [base]

/-- The literal marked-up text of one track item (the darkgrey wrapping of
the condensed intron block comes from the direct builder writes in the `N`
branch of `samToPairwise`). -/
def renderItem : TrackItem → List Char
  | .cell b h => applyColor b h
  | .condensed e m =>
    "<darkgrey>".toList ++ List.replicate condensedNSEdgeLength e ++ m ++
      List.replicate condensedNSEdgeLength e ++ "</darkgrey>".toList

/-- The literal marked-up text of a whole track. -/
def renderTrack (items : List TrackItem) : List Char :=
  (items.map renderItem).flatten

/-- The highlight options passed to `samToPairwise` (`useKnownMutation`,
`knownRefBase`, `knownAltBase`, `markChar`). -/
structure HLConfig where
  useKnownMutation : Bool
  knownRefBase : Char
  knownAltBase : Char
  markChar : Char
deriving DecidableEq, Repr

/-- The highlighting decision block of `samToPairwise` (the code between
the `--- Determine Highlighting ---` comments): given the mismatch status
and the bases, decide the (single) highlight flag and the marker character.
In the Go source `shouldHighlightRead` and `shouldHighlightRef` are set
identically in every branch, so they are modelled as one flag.  The two
highlighted mismatch branches (`refBase == knownRefBase` with a different
alt, and a mismatch not involving the known ref base) are kept separate to
mirror the source. -/
def highlightDecision (isMismatch useKnown : Bool)
    (refBase readBase knownRef knownAlt markChar : Char) : Bool × Char :=
  if isMismatch then
    if useKnown then
      if refBase = knownRef ∧ readBase = knownAlt then (false, markChar)
      else if refBase = knownRef then (true, ' ')
      else (true, ' ')
    else (true, ' ')
  else
    if useKnown ∧ refBase = knownRef then (true, '|')
    else (false, '|')

/-- The mutable state of the `samToPairwise` loop: the three cursors
(`seqPos`, `mdIndex`, `mdSubPos`), the `hasMD` flag, and the three output
builders. -/
structure PWState where
  seqPos : Nat
  mdIndex : Nat
  mdSubPos : Nat
  hasMD : Bool
  refT : List TrackItem
  alnT : List TrackItem
  mark : List Char
deriving DecidableEq, Repr

/-- The shared emission tail of one `M`/`=`/`X` position (lines appending
`applyColor(...readBase...)`, `applyColor(...refBase...)`, the marker, and
`seqPos++`). -/
def emitMX (cfg : HLConfig) (readBase refBase : Char) (isMismatch : Bool)
    (st : PWState) : PWState :=
  let d := highlightDecision isMismatch cfg.useKnownMutation refBase readBase
    cfg.knownRefBase cfg.knownAltBase cfg.markChar
  { st with
    alnT := st.alnT ++ [.cell readBase d.1],
    refT := st.refT ++ [.cell refBase d.1],
    mark := st.mark ++ [d.2],
    seqPos := st.seqPos + 1 }

/-- The skip condition of the placeholder-skipping loops: `Num == 0`,
empty `Changes`, not a deletion. -/
def isSkippableMD (e : MDTagEntry) : Bool :=
  e.num = 0 && e.changes.isEmpty && !e.isDel

/-- Number of leading skippable entries of a list. -/
def countLeadingSkippable : List MDTagEntry → Nat
  | [] => 0
  | e :: rest =>
    if isSkippableMD e then countLeadingSkippable rest + 1 else 0

/-- The placeholder-skipping loop
(`for mdIndex < len(mdEntries) && ...zero entry... { mdIndex++ }`):
the first index `≥ i` that is past the end or holds a non-skippable entry. -/
def skipZeros (entries : List MDTagEntry) (i : Nat) : Nat :=
  i + countLeadingSkippable (entries.drop i)

/-- One position of an `M`/`=`/`X` CIGAR operation (the body of the
`for i := 0; i < length; i++` loop of the `M, =, X` case). -/
def stepMX (seq : List Char) (opType : Char) (cfg : HLConfig)
    (entries : List MDTagEntry) (st : PWState) : Except String PWState :=
  if seq.length ≤ st.seqPos then
    .error "CIGAR M/=/X asks for a base beyond the sequence length"
  else
    if st.hasMD then
      if entries.length ≤ skipZeros entries st.mdIndex then
        -- ran out of MD information: warn, stop using MD, 'N', mismatch
        .ok (emitMX cfg (seq.getD st.seqPos 'N') 'N' true
          { st with mdIndex := skipZeros entries st.mdIndex, hasMD := false })
      else
        if (entries.getD (skipZeros entries st.mdIndex) default).isDel then
          .error "MD tag indicates deletion during CIGAR M/=/X"
        else if 0 < (entries.getD (skipZeros entries st.mdIndex) default).num then
          -- MD indicates a match
          if st.mdSubPos + 1
              = (entries.getD (skipZeros entries st.mdIndex) default).num then
            .ok (emitMX cfg (seq.getD st.seqPos 'N') (seq.getD st.seqPos 'N') false
              { st with mdIndex := skipZeros entries st.mdIndex + 1, mdSubPos := 0 })
          else
            .ok (emitMX cfg (seq.getD st.seqPos 'N') (seq.getD st.seqPos 'N') false
              { st with mdIndex := skipZeros entries st.mdIndex,
                        mdSubPos := st.mdSubPos + 1 })
        else
          -- MD indicates a mismatch (a malformed entry degrades to 'N')
          .ok (emitMX cfg (seq.getD st.seqPos 'N')
            (if (entries.getD (skipZeros entries st.mdIndex) default).changes.length ≠ 1
             then 'N'
             else (entries.getD (skipZeros entries st.mdIndex) default).changes.headD 'N')
            true
            { st with mdIndex := skipZeros entries st.mdIndex + 1, mdSubPos := 0 })
    else
      -- no valid MD info: '=' implies a match, 'M'/'X' assume mismatch/'N'
      if opType = '=' then
        .ok (emitMX cfg (seq.getD st.seqPos 'N') (seq.getD st.seqPos 'N') false st)
      else
        .ok (emitMX cfg (seq.getD st.seqPos 'N') 'N' true st)

/-- The whole `M`/`=`/`X` loop (`length` iterations of `stepMX`). -/
def runMX (seq : List Char) (opType : Char) (cfg : HLConfig)
    (entries : List MDTagEntry) : Nat → PWState → Except String PWState
  | 0, st => .ok st
  | n + 1, st =>
    match stepMX seq opType cfg entries st with
    | .error e => .error e
    | .ok st' => runMX seq opType cfg entries n st'

/-- The `I` (insertion) loop: read bases highlighted, gaps in the
reference, space markers; consumes the query. -/
def runI (seq : List Char) : Nat → PWState → Except String PWState
  | 0, st => .ok st
  | n + 1, st =>
    if seq.length ≤ st.seqPos then
      .error "CIGAR I asks for a base beyond the sequence length"
    else
      runI seq n
        { st with
          alnT := st.alnT ++ [.cell (seq.getD st.seqPos 'N') true],
          refT := st.refT ++ [.cell '-' true],
          mark := st.mark ++ [' '],
          seqPos := st.seqPos + 1 }

/-- The `S` (soft clip) loop: read bases highlighted, `'.'` placeholders in
the reference (not highlighted), space markers; consumes the query. -/
def runS (seq : List Char) : Nat → PWState → Except String PWState
  | 0, st => .ok st
  | n + 1, st =>
    if seq.length ≤ st.seqPos then
      .error "CIGAR S asks for a base beyond the sequence length"
    else
      runS seq n
        { st with
          alnT := st.alnT ++ [.cell (seq.getD st.seqPos 'N') true],
          refT := st.refT ++ [.cell '.' false],
          mark := st.mark ++ [' '],
          seqPos := st.seqPos + 1 }

/-- The middle annotation of a condensed intron block:
`fmt.Sprintf("..%dnt..", length)`. -/
def condensedMiddle (n : Nat) : List Char :=
  ['.', '.'] ++ encodeNat n ++ ['n', 't', '.', '.']

/-- The `N` (intron) case: condensed fixed-width block when the length
exceeds `minIntronCompressLength`, otherwise one `N`/`.` per base. -/
def runN (n : Nat) (st : PWState) : PWState :=
  if minIntronCompressLength < n then
    let middle := condensedMiddle n
    let displayWidth := condensedNSEdgeLength * 2 + middle.length
    { st with
      refT := st.refT ++ [.condensed 'N' middle],
      alnT := st.alnT ++ [.condensed '.' middle],
      mark := st.mark ++ List.replicate displayWidth ' ' }
  else
    { st with
      alnT := st.alnT ++ List.replicate n (.cell '.' false),
      refT := st.refT ++ List.replicate n (.cell 'N' false),
      mark := st.mark ++ List.replicate n ' ' }

/-- The `D` (deletion) loop when MD information is available
(`for deletedBasesFound < length`): consume deletion entries, with
`mdSubPos` tracking the position inside a multi-base deletion entry.
The query cursor is untouched.

The Go source advances to the next entry when `mdSubPos == delSeqLen`
after the update; states with `mdSubPos > delSeqLen` are unreachable (the
cursor enters a deletion entry with `mdSubPos < delSeqLen` and never
overshoots), and on them the Go loop would not terminate, so the
advancement test is written `delSeqLen ≤ mdSubPos + basesToTake` here,
which agrees with the source on every reachable state and makes the
recursion total. -/
def runD (entries : List MDTagEntry) (dLen : Nat) (found : Nat)
    (st : PWState) : Except String PWState :=
  if h : found < dLen then
    if hi : entries.length ≤ skipZeros entries st.mdIndex then
      -- ran out of MD info: fill the remainder with 'N', stop using MD
      .ok { st with
            alnT := st.alnT ++
              List.replicate (dLen - found) (TrackItem.cell '-' true),
            refT := st.refT ++
              List.replicate (dLen - found) (TrackItem.cell 'N' true),
            mark := st.mark ++ List.replicate (dLen - found) ' ',
            hasMD := false, mdIndex := skipZeros entries st.mdIndex }
    else
      if (entries.getD (skipZeros entries st.mdIndex) default).isDel then
        if hadv : (entries.getD (skipZeros entries st.mdIndex) default).changes.length ≤
            st.mdSubPos + min (dLen - found)
              ((entries.getD (skipZeros entries st.mdIndex) default).changes.length
                - st.mdSubPos) then
          runD entries dLen
            (found + min (dLen - found)
              ((entries.getD (skipZeros entries st.mdIndex) default).changes.length
                - st.mdSubPos))
            { st with
              alnT := st.alnT ++ List.replicate
                (min (dLen - found)
                  ((entries.getD (skipZeros entries st.mdIndex) default).changes.length
                    - st.mdSubPos))
                (TrackItem.cell '-' true),
              refT := st.refT ++
                (((entries.getD (skipZeros entries st.mdIndex) default).changes.drop
                    st.mdSubPos).take
                  (min (dLen - found)
                    ((entries.getD (skipZeros entries st.mdIndex) default).changes.length
                      - st.mdSubPos))).map (fun b => TrackItem.cell b true),
              mark := st.mark ++ List.replicate
                (min (dLen - found)
                  ((entries.getD (skipZeros entries st.mdIndex) default).changes.length
                    - st.mdSubPos)) ' ',
              mdIndex := skipZeros entries st.mdIndex + 1, mdSubPos := 0 }
        else
          runD entries dLen
            (found + min (dLen - found)
              ((entries.getD (skipZeros entries st.mdIndex) default).changes.length
                - st.mdSubPos))
            { st with
              alnT := st.alnT ++ List.replicate
                (min (dLen - found)
                  ((entries.getD (skipZeros entries st.mdIndex) default).changes.length
                    - st.mdSubPos))
                (TrackItem.cell '-' true),
              refT := st.refT ++
                (((entries.getD (skipZeros entries st.mdIndex) default).changes.drop
                    st.mdSubPos).take
                  (min (dLen - found)
                    ((entries.getD (skipZeros entries st.mdIndex) default).changes.length
                      - st.mdSubPos))).map (fun b => TrackItem.cell b true),
              mark := st.mark ++ List.replicate
                (min (dLen - found)
                  ((entries.getD (skipZeros entries st.mdIndex) default).changes.length
                    - st.mdSubPos)) ' ',
              mdIndex := skipZeros entries st.mdIndex,
              mdSubPos := st.mdSubPos + min (dLen - found)
                ((entries.getD (skipZeros entries st.mdIndex) default).changes.length
                  - st.mdSubPos) }
      else
        .error "MD tag indicates match or mismatch during CIGAR D"
  else .ok st
termination_by (dLen - found) + (entries.length - st.mdIndex)
decreasing_by
  · simp only [skipZeros] at *
    omega
  · simp only [skipZeros] at *
    omega

/-- The `P` (padding) case: `'*'` on both tracks, highlighted, space
markers; no cursor advance. -/
def runP (n : Nat) (st : PWState) : PWState :=
  { st with
    alnT := st.alnT ++ List.replicate n (.cell '*' true),
    refT := st.refT ++ List.replicate n (.cell '*' true),
    mark := st.mark ++ List.replicate n ' ' }

/-- The `switch opType` dispatch of `samToPairwise` for one CIGAR
operation. -/
def processOp (seq : List Char) (cfg : HLConfig) (entries : List MDTagEntry)
    (op : CigarOp) (st : PWState) : Except String PWState :=
  if op.op = 'M' ∨ op.op = '=' ∨ op.op = 'X' then
    runMX seq op.op cfg entries op.length st
  else if op.op = 'I' then runI seq op.length st
  else if op.op = 'D' then
    if st.hasMD then runD entries op.length 0 st
    else
      -- no valid MD tag: deleted reference bases become 'N'
      .ok { st with
            alnT := st.alnT ++ List.replicate op.length (.cell '-' true),
            refT := st.refT ++ List.replicate op.length (.cell 'N' true),
            mark := st.mark ++ List.replicate op.length ' ' }
  else if op.op = 'N' then .ok (runN op.length st)
  else if op.op = 'S' then runS seq op.length st
  else if op.op = 'H' then .ok st
  else if op.op = 'P' then .ok (runP op.length st)
  else .error "unsupported CIGAR operation"

/-- The main loop of `samToPairwise` over the parsed CIGAR operations. -/
def runOps (seq : List Char) (cfg : HLConfig) (entries : List MDTagEntry) :
    List CigarOp → PWState → Except String PWState
  | [], st => .ok st
  | op :: rest, st =>
    match processOp seq cfg entries op st with
    | .error e => .error e
    | .ok st' => runOps seq cfg entries rest st'

/-- The result of `samToPairwise`: the three output tracks
(reference, query, marker). -/
structure PairwiseResult where
  refTrack : List TrackItem
  queryTrack : List TrackItem
  markerTrack : List Char
deriving DecidableEq, Repr

/-- `samToPairwise` from the Go source.  An MD parse failure is tolerated
(a warning in Go): processing continues with `hasMD = false`.  The final
consumed-length consistency check only prints a warning and does not
change the returned strings, so it is not modelled. -/
def samToPairwise (seq cigar mdTag : List Char) (cfg : HLConfig) :
    Except String PairwiseResult :=
  match parseCigar cigar with
  | .error e => .error ("error parsing CIGAR: " ++ e)
  | .ok ops =>
    let pm : Bool × List MDTagEntry :=
      if mdTag.isEmpty then (false, [])
      else
        match parseMDTag mdTag with
        | .ok es => (true, es)
        | .error _ => (false, [])
    match runOps seq cfg pm.2 ops
        { seqPos := 0, mdIndex := 0, mdSubPos := 0, hasMD := pm.1,
          refT := [], alnT := [], mark := [] } with
    | .error e => .error e
    | .ok st => .ok ⟨st.refT, st.alnT, st.mark⟩

/-- The expected number of sequence bases consumed by a CIGAR, from the
final consistency check of `samToPairwise`
(`strings.ContainsRune("MIS=X", op.Op)`). -/
def seqDemand : List CigarOp → Nat
  | [] => 0
  | op :: rest =>
    (if op.op = 'M' ∨ op.op = 'I' ∨ op.op = 'S' ∨ op.op = '=' ∨ op.op = 'X'
     then op.length else 0) + seqDemand rest

/-- The plain-character view of a `samToPairwise` result: the three tracks
with styling markup ignored. -/
def obs (x : Except String PairwiseResult) :
    Except String (List Char × List Char × List Char) :=
  x.map fun r => (trackChars r.refTrack, trackChars r.queryTrack, r.markerTrack)

/-- `strings.HasPrefix(field, "MD:Z:")`. -/
def isMDField (s : List Char) : Bool :=
  s.take 5 = ['M', 'D', ':', 'Z', ':']

/-- The per-record processing of `processSAMStdin` (with the default
configuration, i.e. no `-f`/`-r` filtering): records with fewer than 11
tab-separated fields are skipped (`none`); otherwise the CIGAR is field 5,
the sequence field 9, and the MD tag value comes from the first optional
field (index ≥ 11) with prefix `MD:Z:`.  Field 10 (QUAL) is never read. -/
def processRecord (fields : List (List Char)) (cfg : HLConfig) :
    Option (Except String PairwiseResult) :=
  if fields.length < 11 then none
  else
    let cigar := fields.getD 5 []
    let seq := fields.getD 9 []
    let mdTagValue :=
      match (fields.drop 11).find? isMDField with
      | some f => f.drop 5
      | none => []
    some (samToPairwise seq cigar mdTagValue cfg)

/-- Re-encoding of one MD entry, as described by the specification:
decimal digits for a match run, the literal base for a mismatch, `^`
followed by the bases for a deletion. -/
def encodeEntry (e : MDTagEntry) : List Char :=
  if e.isDel then '^' :: e.changes
  else if ¬ e.changes.isEmpty then e.changes
  else encodeNat e.num

/-- Re-encoding of a whole MD entry list. -/
def encodeEntries (es : List MDTagEntry) : List Char :=
  (es.map encodeEntry).flatten

/-- Re-encoding of a CIGAR operation list: decimal length then operation
character, concatenated. -/
def encodeOps (ops : List CigarOp) : List Char :=
  (ops.map fun o => encodeNat o.length ++ [o.op]).flatten

/-- Whether a string starts with a decimal digit. -/
def headIsDigit : List Char → Bool
  | [] => false
  | c :: _ => isDigitChar c

/-- Scanner deciding that no maximal digit run of a string starts with a
redundant leading zero (a lone `0` is allowed; `00`, `07`, ... are not).
The flag records whether the scan position is inside a digit run. -/
def noLZAux : List Char → Bool → Bool
  | [], _ => true
  | c :: rest, inRun =>
    if isDigitChar c then
      if !inRun && c = '0' && headIsDigit rest then false
      else noLZAux rest true
    else noLZAux rest false

/-- The pending-digit accumulator is canonical: it is empty, or does not
start with `'0'`, or is the lone digit `"0"` not followed by a further
digit. -/
def goodNum (numAcc rest : List Char) : Prop :=
  numAcc = [] ∨ numAcc.headD ' ' ≠ '0' ∨
    (numAcc = ['0'] ∧ headIsDigit rest = false)

/-- The characters a `parseMDTagAux` configuration still owes to the
output: the pending digits in state `num`, the pending mismatch base in
state `change`, the already-consumed `^` in the deletion states. -/
def pendingChars (st : MDState) (numAcc changeAcc : List Char) : List Char :=
  match st with
  | .num => numAcc
  | .change => changeAcc
  | .delStart => ['^']
  | .del => '^' :: changeAcc

/-- Whether a `parseMDTagAux` configuration is in the middle of a digit
run (state `num` with pending digits). -/
def mdInRun (st : MDState) (numAcc : List Char) : Bool :=
  match st with
  | .num => !numAcc.isEmpty
  | _ => false

/-- A zero-count match-run entry with no bases: the placeholder produced
by an explicit `0` token in an MD tag, skipped by both placeholder loops
of `samToPairwise`. -/
def zeroMR : MDTagEntry := ⟨0, [], false⟩

/-- Index correspondence after deleting the entry at position `p` from an
entry list: indices at most `p` are unchanged, later ones shift down. -/
def phiIdx (p i : Nat) : Nat := if i ≤ p then i else i - 1

/-- State correspondence for the placeholder-insertion simulation: only
the MD entry cursor is re-indexed. -/
def phiSt (p : Nat) (st : PWState) : PWState :=
  { st with mdIndex := phiIdx p st.mdIndex }

/-- Decidable equality of results, for computing with concrete records. -/
instance {e a : Type} [DecidableEq e] [DecidableEq a] :
    DecidableEq (Except e a) := fun x y =>
  match x, y with
  | .error u, .error v =>
    if h : u = v then .isTrue (by rw [h])
    else .isFalse (fun hh => h (Except.error.inj hh))
  | .error _, .ok _ => .isFalse (fun hh => Except.noConfusion hh)
  | .ok _, .error _ => .isFalse (fun hh => Except.noConfusion hh)
  | .ok u, .ok v =>
    if h : u = v then .isTrue (by rw [h])
    else .isFalse (fun hh => h (Except.ok.inj hh))

/-! ### Decimal digit helper lemmas -/

theorem encodeNatAux_eq_digits (fuel : Nat) :
    ∀ n : Nat, n ≤ fuel →
      encodeNatAux fuel n = ((Nat.digits 10 n).map digitChar).reverse := by
  induction fuel with
  | zero =>
    intro n hn
    interval_cases n
    simp [encodeNatAux]
  | succ fuel ih =>
    intro n hn
    by_cases h0 : n = 0
    · subst h0; simp [encodeNatAux]
    · have hpos : 0 < n := Nat.pos_of_ne_zero h0
      have hdiv : n / 10 ≤ fuel := by
        have := Nat.div_lt_self hpos (by norm_num : 1 < 10)
        omega
      rw [show encodeNatAux (fuel + 1) n
            = encodeNatAux fuel (n / 10) ++ [digitChar (n % 10)] by
          simp [encodeNatAux, h0]]
      rw [ih _ hdiv, Nat.digits_def' (by norm_num : (1:Nat) < 10) hpos]
      simp

theorem encodeNat_eq_digits (n : Nat) (h0 : n ≠ 0) :
    encodeNat n = ((Nat.digits 10 n).map digitChar).reverse := by
  rw [encodeNat, if_neg h0, encodeNatAux_eq_digits n n le_rfl]

theorem isDigitChar_toNat {c : Char} (h : isDigitChar c = true) :
    48 ≤ c.toNat ∧ c.toNat ≤ 57 := by
  simp only [isDigitChar, Bool.and_eq_true, decide_eq_true_eq] at h
  obtain ⟨h1, h2⟩ := h
  exact ⟨h1, h2⟩

theorem digitChar_toNat_sub {c : Char} (h : isDigitChar c = true) :
    digitChar (c.toNat - 48) = c := by
  have h48 := (isDigitChar_toNat h).1
  rw [digitChar, Nat.sub_add_cancel h48, Char.ofNat_toNat]

theorem char_eq_of_toNat_48 {c : Char} (h : c.toNat = 48) : c = '0' := by
  have : Char.ofNat c.toNat = Char.ofNat 48 := by rw [h]
  rwa [Char.ofNat_toNat] at this

theorem digitsVal_foldl (ds : List Char) :
    ∀ a : Nat,
      ds.foldl (fun a c => 10 * a + (c.toNat - 48)) a
        = a * 10 ^ ds.length
            + Nat.ofDigits 10 ((ds.map fun c => c.toNat - 48).reverse) := by
  induction ds with
  | nil => intro a; simp [Nat.ofDigits]
  | cons c t ih =>
    intro a
    simp only [List.foldl_cons, List.map_cons, List.reverse_cons, List.length_cons]
    rw [ih, Nat.ofDigits_append]
    simp only [List.length_reverse, List.length_map]
    rw [Nat.ofDigits_cons, Nat.ofDigits_nil]
    ring

theorem digitsVal_eq_ofDigits (ds : List Char) :
    digitsVal ds = Nat.ofDigits 10 ((ds.map fun c => c.toNat - 48).reverse) := by
  rw [digitsVal, digitsVal_foldl]
  simp

/-- Canonicity: re-printing the value of a digit string reproduces it,
provided the string has no redundant leading zero. -/
theorem encodeNat_digitsVal (ds : List Char) (hne : ds ≠ [])
    (hd : ∀ c ∈ ds, isDigitChar c = true)
    (hz : ds.headD ' ' ≠ '0' ∨ ds = ['0']) :
    encodeNat (digitsVal ds) = ds := by
  rcases hz with hz | rfl
  · obtain ⟨c, t, rfl⟩ : ∃ c t, ds = c :: t := by
      cases ds with
      | nil => exact absurd rfl hne
      | cons c t => exact ⟨c, t, rfl⟩
    simp only [List.headD_cons] at hz
    have hcv : isDigitChar c = true := hd c (List.mem_cons_self c t)
    have hc48 : 48 ≤ c.toNat := (isDigitChar_toNat hcv).1
    have hcne : c.toNat - 48 ≠ 0 := by
      intro h0
      exact hz (char_eq_of_toNat_48 (by omega))
    have w₁ : ∀ l ∈ (((c :: t).map fun x => x.toNat - 48).reverse), l < 10 := by
      intro l hl
      rw [List.mem_reverse, List.mem_map] at hl
      obtain ⟨x, hx, rfl⟩ := hl
      have := (isDigitChar_toNat (hd x hx)).2
      omega
    have hLne : (((c :: t).map fun x => x.toNat - 48).reverse) ≠ [] := by
      simp
    have w₂ : ∀ h : (((c :: t).map fun x => x.toNat - 48).reverse) ≠ [],
        (((c :: t).map fun x => x.toNat - 48).reverse).getLast h ≠ 0 := by
      intro h
      rw [List.getLast_reverse]
      simpa using hcne
    have hdig := Nat.digits_ofDigits 10 (by norm_num) _ w₁ w₂
    have hval := digitsVal_eq_ofDigits (c :: t)
    have hn0 : digitsVal (c :: t) ≠ 0 := by
      intro h0
      rw [h0] at hval
      have : Nat.digits 10 (Nat.ofDigits 10
          (((c :: t).map fun x => x.toNat - 48).reverse)) = [] := by
        rw [← hval]; simp
      rw [hdig] at this
      exact hLne this
    rw [encodeNat_eq_digits _ hn0, hval, hdig]
    rw [List.map_reverse, List.reverse_reverse, List.map_map]
    have : (digitChar ∘ fun x : Char => x.toNat - 48) = fun x : Char =>
        digitChar (x.toNat - 48) := rfl
    rw [this]
    conv_rhs => rw [show c :: t = (c :: t).map id from (List.map_id _).symm]
    apply List.map_congr_left
    intro x hx
    rw [digitChar_toNat_sub (hd x hx)]
    rfl
  · decide

/-! ### No-leading-zero scanner lemmas -/

theorem noLZ_digit_start {c : Char} {r : List Char}
    (hc : isDigitChar c = true) (h : noLZAux (c :: r) false = true) :
    noLZAux r true = true ∧ (c = '0' → headIsDigit r = false) := by
  simp only [noLZAux, hc, if_pos] at h
  by_cases hc0 : c = '0'
  · subst hc0
    cases hr : headIsDigit r with
    | true => simp [hr] at h
    | false =>
      simp only [hr, Bool.and_false, Bool.false_eq_true, if_false] at h
      exact ⟨by simpa using h, fun _ => rfl⟩
  · simp only [hc0] at h
    refine ⟨?_, fun h0 => absurd h0 hc0⟩
    simpa using h

theorem noLZ_digit_cont {c : Char} {r : List Char}
    (hc : isDigitChar c = true) (h : noLZAux (c :: r) true = true) :
    noLZAux r true = true := by
  simp only [noLZAux, hc, if_pos, Bool.not_true, Bool.false_and] at h
  simpa using h

theorem noLZ_nondigit {c : Char} {r : List Char} {b : Bool}
    (hc : isDigitChar c = false) (h : noLZAux (c :: r) b = true) :
    noLZAux r false = true := by
  simp only [noLZAux, hc, Bool.false_eq_true, if_false] at h
  exact h

theorem goodNum_nil (r : List Char) : goodNum [] r := Or.inl rfl

theorem goodNum_singleton {c : Char} {r : List Char}
    (hc : isDigitChar c = true)
    (hlz : c = '0' → headIsDigit r = false) :
    goodNum [c] r := by
  by_cases h0 : c = '0'
  · subst h0
    exact Or.inr (Or.inr ⟨rfl, hlz rfl⟩)
  · exact Or.inr (Or.inl (by simpa using h0))

theorem goodNum_extend {numAcc : List Char} {c : Char} {r : List Char}
    (hc : isDigitChar c = true)
    (hg : goodNum numAcc (c :: r))
    (hlz : numAcc = [] → c = '0' → headIsDigit r = false) :
    goodNum (numAcc ++ [c]) r := by
  cases numAcc with
  | nil => exact goodNum_singleton hc (hlz rfl)
  | cons a t =>
    rcases hg with h | h | h
    · exact absurd h (by simp)
    · exact Or.inr (Or.inl (by simpa using h))
    · exfalso
      have hh : headIsDigit (c :: r) = false := h.2
      rw [headIsDigit, hc] at hh
      exact Bool.noConfusion hh

theorem goodNum_headD {numAcc rest : List Char} (hg : goodNum numAcc rest) :
    numAcc.headD ' ' ≠ '0' ∨ numAcc = ['0'] ∨ numAcc = [] := by
  rcases hg with h | h | h
  · exact Or.inr (Or.inr h)
  · exact Or.inl h
  · exact Or.inr (Or.inl h.1)

theorem encodeEntries_append (a b : List MDTagEntry) :
    encodeEntries (a ++ b) = encodeEntries a ++ encodeEntries b := by
  simp [encodeEntries]

theorem encodeEntries_flushNum {numAcc rest : List Char}
    (hd : ∀ c ∈ numAcc, isDigitChar c = true) (hg : goodNum numAcc rest) :
    encodeEntries (flushNum numAcc) = numAcc := by
  cases hne : numAcc.isEmpty with
  | true =>
    rw [List.isEmpty_iff] at hne
    subst hne
    simp [flushNum, encodeEntries]
  | false =>
    rw [flushNum, if_neg (by simp [hne])]
    have hne' : numAcc ≠ [] := by
      intro h; subst h; simp at hne
    have hz : numAcc.headD ' ' ≠ '0' ∨ numAcc = ['0'] := by
      rcases goodNum_headD hg with h | h | h
      · exact Or.inl h
      · exact Or.inr h
      · exact absurd h hne'
    have hone : encodeEntries [⟨digitsVal numAcc, [], false⟩]
        = encodeNat (digitsVal numAcc) := by
      simp [encodeEntries, encodeEntry]
    rw [hone]
    exact encodeNat_digitsVal numAcc hne' hd hz

/-! ### CIGAR round trip -/

theorem parseCigarAux_roundtrip :
    ∀ (rest lenAcc : List Char) (acc final : List CigarOp),
      parseCigarAux rest lenAcc acc = .ok final →
      (∀ c ∈ lenAcc, isDigitChar c = true) →
      goodNum lenAcc rest →
      noLZAux rest (!lenAcc.isEmpty) = true →
      encodeOps final = encodeOps acc ++ lenAcc ++ rest := by
  intro rest
  induction rest with
  | nil =>
    intro lenAcc acc final hp hd hg hlz
    rw [parseCigarAux] at hp
    split at hp
    · next hemp =>
      rw [List.isEmpty_iff] at hemp
      subst hemp
      simp only [Except.ok.injEq] at hp
      subst hp
      simp
    · exact absurd hp (by simp)
  | cons c r ih =>
    intro lenAcc acc final hp hd hg hlz
    rw [parseCigarAux] at hp
    by_cases hc : isDigitChar c = true
    · rw [if_pos hc] at hp
      have hflag : noLZAux r true = true ∧
          (lenAcc = [] → c = '0' → headIsDigit r = false) := by
        cases hemp : lenAcc.isEmpty with
        | true =>
          rw [List.isEmpty_iff] at hemp
          subst hemp
          simp only [List.isEmpty_nil, Bool.not_true] at hlz
          have := noLZ_digit_start hc hlz
          exact ⟨this.1, fun _ => this.2⟩
        | false =>
          rw [hemp] at hlz
          simp only [Bool.not_false] at hlz
          refine ⟨noLZ_digit_cont hc hlz, ?_⟩
          intro h
          subst h
          simp at hemp
      have hd' : ∀ x ∈ lenAcc ++ [c], isDigitChar x = true := by
        intro x hx
        rcases List.mem_append.mp hx with hx | hx
        · exact hd x hx
        · simp only [List.mem_singleton] at hx
          subst hx
          exact hc
      have hg' : goodNum (lenAcc ++ [c]) r :=
        goodNum_extend hc hg hflag.2
      have hstep := ih (lenAcc ++ [c]) acc final hp hd' hg'
        (by rw [show (lenAcc ++ [c]).isEmpty = false from by simp]
            exact hflag.1)
      rw [hstep]
      simp
    · rw [if_neg hc] at hp
      split at hp
      · split at hp
        · exact absurd hp (by simp)
        · next hemp =>
          have hp' : (if digitsVal lenAcc = 0 then
                (Except.error "invalid non-positive CIGAR length" :
                  Except String (List CigarOp))
              else parseCigarAux r [] (acc ++ [⟨digitsVal lenAcc, c⟩]))
              = Except.ok final := hp
          clear hp
          split at hp'
          · exact absurd hp' (by simp)
          · have hlz' : noLZAux r false = true :=
              noLZ_nondigit (by simpa using hc) hlz
            have hstep := ih [] (acc ++ [⟨digitsVal lenAcc, c⟩]) final hp'
              (by intro x hx; simp at hx) (goodNum_nil r)
              (by simpa using hlz')
            rw [hstep]
            have hne : lenAcc ≠ [] := by
              intro h; subst h; simp at hemp
            have hz : lenAcc.headD ' ' ≠ '0' ∨ lenAcc = ['0'] := by
              rcases goodNum_headD hg with h | h | h
              · exact Or.inl h
              · exact Or.inr h
              · exact absurd h hne
            have hcanon : encodeNat (digitsVal lenAcc) = lenAcc :=
              encodeNat_digitsVal lenAcc hne hd hz
            simp only [encodeOps, List.map_append, List.flatten_append,
              List.map_cons, List.map_nil, List.flatten_cons, List.flatten_nil]
            rw [hcanon]
            simp
      · exact absurd hp (by simp)

/-- Round trip for accepted CIGAR strings other than the unmapped marker,
without redundant leading zeros in the lengths. -/
theorem parseCigar_roundtrip (s : List Char) (ops : List CigarOp)
    (hp : parseCigar s = .ok ops) (hstar : s ≠ ['*'])
    (hlz : noLZAux s false = true) :
    encodeOps ops = s := by
  rw [parseCigar] at hp
  split at hp
  · next hor =>
    rcases hor with h | h
    · exact absurd h hstar
    · subst h
      simp only [Except.ok.injEq] at hp
      subst hp
      simp [encodeOps]
  · have hstep := parseCigarAux_roundtrip s [] [] ops hp
      (by intro x hx; simp at hx) (goodNum_nil s) (by simpa using hlz)
    rw [hstep]
    simp [encodeOps]

/-! ### MD tag round trip -/

theorem isLetterChar_toNat {c : Char} (h : isLetterChar c = true) :
    (65 ≤ c.toNat ∧ c.toNat ≤ 90) ∨ (97 ≤ c.toNat ∧ c.toNat ≤ 122) := by
  simp only [isLetterChar, Bool.or_eq_true, Bool.and_eq_true,
    decide_eq_true_eq] at h
  rcases h with ⟨h1, h2⟩ | ⟨h1, h2⟩
  · exact Or.inl ⟨h1, h2⟩
  · exact Or.inr ⟨h1, h2⟩

theorem isLetterChar_not_digit {c : Char} (h : isLetterChar c = true) :
    isDigitChar c = false := by
  cases hd : isDigitChar c with
  | false => rfl
  | true =>
    exfalso
    have h1 := isDigitChar_toNat hd
    rcases isLetterChar_toNat h with ⟨h2, h3⟩ | ⟨h2, h3⟩ <;> omega

theorem encodeEntries_mismatch {ch : List Char} (h : ch ≠ []) :
    encodeEntries [⟨0, ch, false⟩] = ch := by
  simp [encodeEntries, encodeEntry, h]

theorem encodeEntries_deletion (ch : List Char) :
    encodeEntries [⟨0, ch, true⟩] = '^' :: ch := by
  simp [encodeEntries, encodeEntry]

theorem parseMDTagAux_roundtrip :
    ∀ (rest : List Char) (st : MDState) (numAcc changeAcc : List Char)
      (acc final : List MDTagEntry),
      parseMDTagAux rest st numAcc changeAcc acc = .ok final →
      (st = MDState.num → ∀ c ∈ numAcc, isDigitChar c = true) →
      (st = MDState.num → goodNum numAcc rest) →
      noLZAux rest (mdInRun st numAcc) = true →
      (st = MDState.num → changeAcc = []) →
      (st = MDState.delStart → changeAcc = []) →
      encodeEntries final
        = encodeEntries acc ++ pendingChars st numAcc changeAcc ++ rest := by
  intro rest
  induction rest with
  | nil =>
    intro st numAcc changeAcc acc final hp hd hg hlz hch1 hch2
    cases st with
    | num =>
      rw [parseMDTagAux] at hp
      simp only [Except.ok.injEq] at hp
      subst hp
      rw [encodeEntries_append, encodeEntries_flushNum (hd rfl) (hg rfl)]
      simp [pendingChars]
    | change => exact absurd hp (by rw [parseMDTagAux]; simp)
    | delStart => exact absurd hp (by rw [parseMDTagAux]; simp)
    | del =>
      rw [parseMDTagAux] at hp
      split at hp
      · exact absurd hp (by simp)
      · simp only [Except.ok.injEq] at hp
        subst hp
        rw [encodeEntries_append, encodeEntries_deletion]
        simp [pendingChars]
  | cons c r ih =>
    intro st numAcc changeAcc acc final hp hd hg hlz hch1 hch2
    cases st with
    | num =>
      rw [parseMDTagAux] at hp
      have hch : changeAcc = [] := hch1 rfl
      subst hch
      by_cases hc : isDigitChar c = true
      · rw [if_pos hc] at hp
        have hflag : noLZAux r true = true ∧
            (numAcc = [] → c = '0' → headIsDigit r = false) := by
          cases hemp : numAcc.isEmpty with
          | true =>
            rw [List.isEmpty_iff] at hemp
            subst hemp
            simp only [mdInRun, List.isEmpty_nil, Bool.not_true] at hlz
            have := noLZ_digit_start hc hlz
            exact ⟨this.1, fun _ => this.2⟩
          | false =>
            simp only [mdInRun, hemp, Bool.not_false] at hlz
            refine ⟨noLZ_digit_cont hc hlz, ?_⟩
            intro h
            subst h
            simp at hemp
        have hd' : ∀ x ∈ numAcc ++ [c], isDigitChar x = true := by
          intro x hx
          rcases List.mem_append.mp hx with hx | hx
          · exact hd rfl x hx
          · simp only [List.mem_singleton] at hx
            subst hx
            exact hc
        have hstep := ih .num (numAcc ++ [c]) [] acc final hp
          (fun _ => hd')
          (fun _ => goodNum_extend hc (hg rfl) hflag.2)
          (by rw [show mdInRun MDState.num (numAcc ++ [c]) = true from by
                simp [mdInRun]]
              exact hflag.1)
          (fun _ => rfl) (by intro h; cases h)
        rw [hstep]
        simp [pendingChars]
      · rw [if_neg hc] at hp
        have hlz' : noLZAux r false = true := noLZ_nondigit (by simpa using hc)
          (by simpa [mdInRun] using hlz)
        split at hp
        · -- c = '^'
          next hcaret =>
          have hstep := ih .delStart [] [] (acc ++ flushNum numAcc) final hp
            (by intro h; cases h) (by intro h; cases h)
            (by simpa [mdInRun] using hlz') (by intro h; cases h) (fun _ => rfl)
          rw [hstep, encodeEntries_append,
            encodeEntries_flushNum (hd rfl) (hg rfl)]
          subst hcaret
          simp [pendingChars]
        · split at hp
          · -- letter: start a mismatch
            have hstep := ih .change [] [c] (acc ++ flushNum numAcc) final hp
              (by intro h; cases h) (by intro h; cases h)
              (by simpa [mdInRun] using hlz')
              (by intro h; cases h) (by intro h; cases h)
            rw [hstep, encodeEntries_append,
              encodeEntries_flushNum (hd rfl) (hg rfl)]
            simp [pendingChars]
          · exact absurd hp (by simp)
    | change =>
      rw [parseMDTagAux] at hp
      split at hp
      · next hlen =>
        have hchne : changeAcc ≠ [] := by
          intro h; subst h; simp at hlen
        by_cases hc : isDigitChar c = true
        · rw [if_pos hc] at hp
          simp only [mdInRun] at hlz
          have hflag := noLZ_digit_start hc hlz
          have hstep := ih .num [c] [] (acc ++ [⟨0, changeAcc, false⟩]) final hp
            (by intro _ x hx
                simp only [List.mem_singleton] at hx
                subst hx; exact hc)
            (fun _ => goodNum_singleton hc hflag.2)
            (by rw [show mdInRun MDState.num [c] = true from by simp [mdInRun]]
                exact hflag.1)
            (fun _ => rfl) (by intro h; cases h)
          rw [hstep, encodeEntries_append, encodeEntries_mismatch hchne]
          simp [pendingChars]
        · rw [if_neg hc] at hp
          have hlz' : noLZAux r false = true :=
            noLZ_nondigit (by simpa using hc) (by simpa [mdInRun] using hlz)
          split at hp
          · next hcaret =>
            have hstep := ih .delStart [] [] (acc ++ [⟨0, changeAcc, false⟩])
              final hp (by intro h; cases h) (by intro h; cases h)
              (by simpa [mdInRun] using hlz') (by intro h; cases h) (fun _ => rfl)
            rw [hstep, encodeEntries_append, encodeEntries_mismatch hchne]
            subst hcaret
            simp [pendingChars]
          · exact absurd hp (by simp)
      · exact absurd hp (by simp)
    | delStart =>
      rw [parseMDTagAux] at hp
      have hch : changeAcc = [] := hch2 rfl
      subst hch
      split at hp
      · next hlet =>
        simp only [List.nil_append] at hp
        have hlzc : noLZAux (c :: r) false = true := by
          simpa [mdInRun] using hlz
        have hlzr : noLZAux r false = true :=
          noLZ_nondigit (isLetterChar_not_digit hlet) hlzc
        have hstep := ih .del numAcc [c] acc final hp
          (by intro h; cases h) (by intro h; cases h)
          (by simpa [mdInRun] using hlzr)
          (by intro h; cases h) (by intro h; cases h)
        rw [hstep]
        simp [pendingChars]
      · exact absurd hp (by simp)
    | del =>
      rw [parseMDTagAux] at hp
      split at hp
      · -- letter: continue the deletion run
        next hlet =>
        have hlzc : noLZAux (c :: r) false = true := by
          simpa [mdInRun] using hlz
        have hlzr : noLZAux r false = true :=
          noLZ_nondigit (isLetterChar_not_digit hlet) hlzc
        have hstep := ih .del numAcc (changeAcc ++ [c]) acc final hp
          (by intro h; cases h) (by intro h; cases h)
          (by simpa [mdInRun] using hlzr)
          (by intro h; cases h) (by intro h; cases h)
        rw [hstep]
        simp [pendingChars]
      · split at hp
        · exact absurd hp (by simp)
        · next hchne =>
          have hchne' : changeAcc ≠ [] := by
            intro h; subst h; simp at hchne
          by_cases hc : isDigitChar c = true
          · rw [if_pos hc] at hp
            simp only [mdInRun] at hlz
            have hflag := noLZ_digit_start hc hlz
            have hstep := ih .num [c] [] (acc ++ [⟨0, changeAcc, true⟩]) final hp
              (by intro _ x hx
                  simp only [List.mem_singleton] at hx
                  subst hx; exact hc)
              (fun _ => goodNum_singleton hc hflag.2)
              (by rw [show mdInRun MDState.num [c] = true from by simp [mdInRun]]
                  exact hflag.1)
              (fun _ => rfl) (by intro h; cases h)
            rw [hstep, encodeEntries_append, encodeEntries_deletion]
            simp [pendingChars]
          · rw [if_neg hc] at hp
            have hlz' : noLZAux r false = true :=
              noLZ_nondigit (by simpa using hc) (by simpa [mdInRun] using hlz)
            split at hp
            · next hcaret =>
              have hstep := ih .delStart [] [] (acc ++ [⟨0, changeAcc, true⟩])
                final hp (by intro h; cases h) (by intro h; cases h)
                (by simpa [mdInRun] using hlz') (by intro h; cases h)
                (fun _ => rfl)
              rw [hstep, encodeEntries_append, encodeEntries_deletion]
              subst hcaret
              simp [pendingChars]
            · exact absurd hp (by simp)

/-- Round trip for accepted MD tag strings without redundant leading
zeros in the match counts. -/
theorem parseMDTag_roundtrip (s : List Char) (entries : List MDTagEntry)
    (hp : parseMDTag s = .ok entries) (hlz : noLZAux s false = true) :
    encodeEntries entries = s := by
  have hstep := parseMDTagAux_roundtrip s .num [] [] [] entries hp
    (by intro _ x hx; simp at hx) (fun _ => goodNum_nil s)
    (by simpa [mdInRun] using hlz) (fun _ => rfl) (by intro h; cases h)
  rw [hstep]
  simp [encodeEntries, pendingChars]

/-! ### Query-cursor accounting -/

theorem stepMX_ok {seq : List Char} {opType : Char} {cfg : HLConfig}
    {entries : List MDTagEntry} {st st' : PWState}
    (h : stepMX seq opType cfg entries st = .ok st') :
    st.seqPos < seq.length ∧ st'.seqPos = st.seqPos + 1 := by
  rw [stepMX] at h
  split at h
  · exact absurd h (by simp)
  · next hseq =>
    refine ⟨by omega, ?_⟩
    split at h
    · split at h
      · simp only [Except.ok.injEq] at h
        subst h
        simp [emitMX]
      · split at h
        · exact absurd h (by simp)
        · split at h
          · split at h
            · simp only [Except.ok.injEq] at h
              subst h
              simp [emitMX]
            · simp only [Except.ok.injEq] at h
              subst h
              simp [emitMX]
          · simp only [Except.ok.injEq] at h
            subst h
            simp [emitMX]
    · split at h
      · simp only [Except.ok.injEq] at h
        subst h
        simp [emitMX]
      · simp only [Except.ok.injEq] at h
        subst h
        simp [emitMX]

theorem runMX_seqPos {seq : List Char} {opType : Char} {cfg : HLConfig}
    {entries : List MDTagEntry} :
    ∀ {n : Nat} {st st' : PWState},
      runMX seq opType cfg entries n st = .ok st' →
      st'.seqPos = st.seqPos + n ∧ (0 < n → st'.seqPos ≤ seq.length) := by
  intro n
  induction n with
  | zero =>
    intro st st' h
    rw [runMX] at h
    simp only [Except.ok.injEq] at h
    subst h
    exact ⟨rfl, by omega⟩
  | succ n ih =>
    intro st st' h
    rw [runMX] at h
    split at h
    · exact absurd h (by simp)
    · next st₁ hstep =>
      obtain ⟨hlt, hpos⟩ := stepMX_ok hstep
      obtain ⟨h1, h2⟩ := ih h
      refine ⟨by omega, fun _ => ?_⟩
      cases n with
      | zero =>
        rw [runMX] at h
        simp only [Except.ok.injEq] at h
        subst h
        omega
      | succ m => exact h2 (by omega)

theorem runI_seqPos {seq : List Char} :
    ∀ {n : Nat} {st st' : PWState},
      runI seq n st = .ok st' →
      st'.seqPos = st.seqPos + n ∧ (0 < n → st'.seqPos ≤ seq.length) := by
  intro n
  induction n with
  | zero =>
    intro st st' h
    rw [runI] at h
    simp only [Except.ok.injEq] at h
    subst h
    exact ⟨rfl, by omega⟩
  | succ n ih =>
    intro st st' h
    rw [runI] at h
    split at h
    · exact absurd h (by simp)
    · next hseq =>
      obtain ⟨h1, h2⟩ := ih h
      simp only at h1
      refine ⟨by omega, fun _ => ?_⟩
      cases n with
      | zero =>
        rw [runI] at h
        simp only [Except.ok.injEq] at h
        subst h
        simp only
        omega
      | succ m => exact h2 (by omega)

theorem runS_seqPos {seq : List Char} :
    ∀ {n : Nat} {st st' : PWState},
      runS seq n st = .ok st' →
      st'.seqPos = st.seqPos + n ∧ (0 < n → st'.seqPos ≤ seq.length) := by
  intro n
  induction n with
  | zero =>
    intro st st' h
    rw [runS] at h
    simp only [Except.ok.injEq] at h
    subst h
    exact ⟨rfl, by omega⟩
  | succ n ih =>
    intro st st' h
    rw [runS] at h
    split at h
    · exact absurd h (by simp)
    · next hseq =>
      obtain ⟨h1, h2⟩ := ih h
      simp only at h1
      refine ⟨by omega, fun _ => ?_⟩
      cases n with
      | zero =>
        rw [runS] at h
        simp only [Except.ok.injEq] at h
        subst h
        simp only
        omega
      | succ m => exact h2 (by omega)

/-- Processing a CIGAR `D` operation never advances the query cursor. -/
theorem runD_seqPos (entries : List MDTagEntry) (dLen : Nat) :
    ∀ (found : Nat) (st st' : PWState),
      runD entries dLen found st = .ok st' → st'.seqPos = st.seqPos := by
  intro found₀ st₀
  induction found₀, st₀ using runD.induct entries dLen with
  | case1 found st h hi =>
    intro st' hp
    rw [runD, dif_pos h, dif_pos hi] at hp
    simp only [Except.ok.injEq] at hp
    subst hp
    rfl
  | case2 found st h hi hdel hadv ih =>
    intro st' hp
    rw [runD, dif_pos h, dif_neg hi, if_pos hdel, dif_pos hadv] at hp
    exact ih st' hp
  | case3 found st h hi hdel hadv ih =>
    intro st' hp
    rw [runD, dif_pos h, dif_neg hi, if_pos hdel, dif_neg hadv] at hp
    exact ih st' hp
  | case4 found st h hi hdel =>
    intro st' hp
    rw [runD, dif_pos h, dif_neg hi, if_neg hdel] at hp
    exact absurd hp (by simp)
  | case5 found st h =>
    intro st' hp
    rw [runD, dif_neg h] at hp
    simp only [Except.ok.injEq] at hp
    subst hp
    rfl

theorem runN_seqPos (n : Nat) (st : PWState) : (runN n st).seqPos = st.seqPos := by
  rw [runN]
  split <;> rfl

theorem runP_seqPos (n : Nat) (st : PWState) : (runP n st).seqPos = st.seqPos := rfl

theorem processOp_seqPos {seq : List Char} {cfg : HLConfig}
    {entries : List MDTagEntry} {op : CigarOp} {st st' : PWState}
    (h : processOp seq cfg entries op st = .ok st') :
    st'.seqPos = st.seqPos +
        (if op.op = 'M' ∨ op.op = 'I' ∨ op.op = 'S' ∨ op.op = '=' ∨ op.op = 'X'
         then op.length else 0) ∧
      ((op.op = 'M' ∨ op.op = 'I' ∨ op.op = 'S' ∨ op.op = '=' ∨ op.op = 'X') →
        0 < op.length → st'.seqPos ≤ seq.length) := by
  rw [processOp] at h
  split at h
  · next hmx =>
    obtain ⟨h1, h2⟩ := runMX_seqPos h
    constructor
    · rw [if_pos (by tauto)]
      exact h1
    · intro _ hn
      exact h2 hn
  · next hmx =>
    split at h
    · next hop =>
      obtain ⟨h1, h2⟩ := runI_seqPos h
      constructor
      · rw [if_pos (by tauto)]
        exact h1
      · intro _ hn
        exact h2 hn
    · next hopI =>
      split at h
      · next hop =>
        have hseq : st'.seqPos = st.seqPos := by
          split at h
          · exact runD_seqPos entries op.length 0 st st' h
          · simp only [Except.ok.injEq] at h
            subst h
            rfl
        constructor
        · rw [if_neg (by simp [hop])]
          simpa using hseq
        · intro hc
          exfalso
          rw [hop] at hc
          simp at hc
      · next hopD =>
        split at h
        · next hop =>
          simp only [Except.ok.injEq] at h
          subst h
          constructor
          · rw [if_neg (by simp [hop]), runN_seqPos]
            omega
          · intro hc
            exfalso
            rw [hop] at hc
            simp at hc
        · next hopN =>
          split at h
          · next hop =>
            obtain ⟨h1, h2⟩ := runS_seqPos h
            constructor
            · rw [if_pos (by tauto)]
              exact h1
            · intro _ hn
              exact h2 hn
          · next hopS =>
            split at h
            · next hop =>
              simp only [Except.ok.injEq] at h
              subst h
              constructor
              · rw [if_neg (by simp [hop])]
                omega
              · intro hc
                exfalso
                rw [hop] at hc
                simp at hc
            · next hopH =>
              split at h
              · next hop =>
                simp only [Except.ok.injEq] at h
                subst h
                constructor
                · rw [if_neg (by simp [hop]), runP_seqPos]
                  omega
                · intro hc
                  exfalso
                  rw [hop] at hc
                  simp at hc
              · exact absurd h (by simp)

theorem runOps_seqPos {seq : List Char} {cfg : HLConfig}
    {entries : List MDTagEntry} :
    ∀ {ops : List CigarOp} {st st' : PWState},
      runOps seq cfg entries ops st = .ok st' →
      st'.seqPos = st.seqPos + seqDemand ops ∧
        (0 < seqDemand ops → st'.seqPos ≤ seq.length) := by
  intro ops
  induction ops with
  | nil =>
    intro st st' h
    rw [runOps] at h
    simp only [Except.ok.injEq] at h
    subst h
    exact ⟨by simp [seqDemand], by simp [seqDemand]⟩
  | cons op rest ih =>
    intro st st' h
    rw [runOps] at h
    split at h
    · exact absurd h (by simp)
    · next st₁ hstep =>
      obtain ⟨h1, h2⟩ := processOp_seqPos hstep
      obtain ⟨h3, h4⟩ := ih h
      rw [seqDemand]
      constructor
      · rw [h3, h1]
        omega
      · intro hpos
        by_cases hrest : 0 < seqDemand rest
        · exact h4 hrest
        · have hz : seqDemand rest = 0 := by omega
          have hfirst : 0 <
              (if op.op = 'M' ∨ op.op = 'I' ∨ op.op = 'S' ∨ op.op = '=' ∨
                  op.op = 'X' then op.length else 0) := by
            omega
          have hcons : (op.op = 'M' ∨ op.op = 'I' ∨ op.op = 'S' ∨
              op.op = '=' ∨ op.op = 'X') ∧ 0 < op.length := by
            by_cases hc : op.op = 'M' ∨ op.op = 'I' ∨ op.op = 'S' ∨
                op.op = '=' ∨ op.op = 'X'
            · rw [if_pos hc] at hfirst
              exact ⟨hc, hfirst⟩
            · rw [if_neg hc] at hfirst
              omega
          have := h2 hcons.1 hcons.2
          omega

/-! ### Placeholder-skipping lemmas -/

theorem countLeadingSkippable_le (l : List MDTagEntry) :
    countLeadingSkippable l ≤ l.length := by
  induction l with
  | nil => simp [countLeadingSkippable]
  | cons e rest ih =>
    rw [countLeadingSkippable]
    split
    · simp only [List.length_cons]
      omega
    · simp

theorem countLeadingSkippable_append (xs ys : List MDTagEntry) :
    countLeadingSkippable (xs ++ ys)
      = if countLeadingSkippable xs = xs.length
        then xs.length + countLeadingSkippable ys
        else countLeadingSkippable xs := by
  induction xs with
  | nil => simp [countLeadingSkippable]
  | cons e rest ih =>
    by_cases hskip : isSkippableMD e = true
    · simp only [List.cons_append, countLeadingSkippable, hskip, if_true,
        List.append_eq]
      rw [ih]
      have hle := countLeadingSkippable_le rest
      by_cases hall : countLeadingSkippable rest = rest.length
      · rw [if_pos hall,
          if_pos (show countLeadingSkippable rest + 1 = (e :: rest).length from
            by simp [hall])]
        simp only [List.length_cons]
        omega
      · rw [if_neg hall,
          if_neg (show ¬ countLeadingSkippable rest + 1 = (e :: rest).length from
            by simp only [List.length_cons]; omega)]
    · have hskip' : isSkippableMD e = false := by simpa using hskip
      simp only [List.cons_append, countLeadingSkippable, hskip',
        Bool.false_eq_true, if_false]
      rw [if_neg (show ¬ (0 : Nat) = (e :: rest).length from by simp)]

theorem countLeadingSkippable_getD (l : List MDTagEntry)
    (h : countLeadingSkippable l < l.length) :
    isSkippableMD (l.getD (countLeadingSkippable l) default) = false := by
  induction l with
  | nil => simp at h
  | cons e rest ih =>
    by_cases hskip : isSkippableMD e = true
    · rw [countLeadingSkippable, if_pos hskip] at h ⊢
      simp only [List.length_cons] at h
      have := ih (by omega)
      simpa using this
    · have hskip' : isSkippableMD e = false := by simpa using hskip
      rw [countLeadingSkippable, if_neg (by simp [hskip'])]
      simpa using hskip' 

theorem skipZeros_le_of_lt {entries : List MDTagEntry} {i : Nat}
    (h : i < entries.length) : i ≤ skipZeros entries i := Nat.le_add_right _ _

theorem skipZeros_ge (entries : List MDTagEntry) (i : Nat) :
    i ≤ skipZeros entries i := Nat.le_add_right _ _

theorem skipZeros_getD {entries : List MDTagEntry} {i : Nat}
    (h : skipZeros entries i < entries.length) :
    isSkippableMD (entries.getD (skipZeros entries i) default) = false := by
  rw [skipZeros] at h ⊢
  have hi : i ≤ entries.length := by
    by_contra hc
    rw [List.drop_eq_nil_of_le (by omega)] at h
    simp [countLeadingSkippable] at h
    omega
  have hlt : countLeadingSkippable (entries.drop i)
      < (entries.drop i).length := by
    rw [List.length_drop]
    omega
  have := countLeadingSkippable_getD (entries.drop i) hlt
  rwa [List.getD_eq_getElem?_getD, List.getElem?_drop,
    ← List.getD_eq_getElem?_getD] at this

/-! ### Invariance under inserted zero-count match-run placeholders -/

theorem zeroMR_skippable : isSkippableMD zeroMR = true := rfl

theorem phiIdx_succ {p j : Nat} (h : j ≠ p) :
    phiIdx p j + 1 = phiIdx p (j + 1) := by
  rw [phiIdx, phiIdx]
  split <;> split <;> omega

theorem phiIdx_le {p j : Nat} (h : j ≤ p) : phiIdx p j = j := by
  rw [phiIdx, if_pos h]

theorem getD_ins (e₁ e₂ : List MDTagEntry) (i : Nat) (hne : i ≠ e₁.length)
    (d : MDTagEntry) :
    (e₁ ++ zeroMR :: e₂).getD i d = (e₁ ++ e₂).getD (phiIdx e₁.length i) d := by
  rcases lt_or_ge i e₁.length with hi | hi
  · rw [phiIdx_le (by omega), List.getD_append _ _ _ _ hi,
      List.getD_append _ _ _ _ hi]
  · have hgt : e₁.length < i := by omega
    rw [phiIdx, if_neg (by omega), List.getD_append_right _ _ _ _ (by omega),
      List.getD_append_right _ _ _ _ (by omega)]
    have h1 : i - e₁.length = (i - e₁.length - 1) + 1 := by omega
    rw [h1]
    simp only [List.getD_cons_succ]
    congr 1
    omega

theorem skipZeros_ins (e₁ e₂ : List MDTagEntry) (i : Nat) :
    skipZeros (e₁ ++ e₂) (phiIdx e₁.length i)
        = phiIdx e₁.length (skipZeros (e₁ ++ zeroMR :: e₂) i)
      ∧ skipZeros (e₁ ++ zeroMR :: e₂) i ≠ e₁.length := by
  rcases le_or_lt i e₁.length with hi | hi
  · rw [phiIdx_le hi]
    have hdropA : (e₁ ++ zeroMR :: e₂).drop i = e₁.drop i ++ (zeroMR :: e₂) := by
      rw [List.drop_append_eq_append_drop, Nat.sub_eq_zero_of_le hi,
        List.drop_zero]
    have hdropB : (e₁ ++ e₂).drop i = e₁.drop i ++ e₂ := by
      rw [List.drop_append_eq_append_drop, Nat.sub_eq_zero_of_le hi,
        List.drop_zero]
    have hlen : (e₁.drop i).length = e₁.length - i := List.length_drop _ _
    rw [skipZeros, skipZeros, hdropA, hdropB, countLeadingSkippable_append,
      countLeadingSkippable_append]
    by_cases hall : countLeadingSkippable (e₁.drop i) = (e₁.drop i).length
    · rw [if_pos hall, if_pos hall]
      rw [show countLeadingSkippable (zeroMR :: e₂)
          = countLeadingSkippable e₂ + 1 from by
        rw [countLeadingSkippable, if_pos zeroMR_skippable]]
      constructor
      · rw [phiIdx, if_neg (by omega)]
        omega
      · omega
    · rw [if_neg hall, if_neg hall]
      have hlt : countLeadingSkippable (e₁.drop i) < (e₁.drop i).length := by
        have := countLeadingSkippable_le (e₁.drop i)
        omega
      constructor
      · rw [phiIdx, if_pos (by omega)]
      · omega
  · have hphi : phiIdx e₁.length i = i - 1 := by
      rw [phiIdx, if_neg (by omega)]
    have hdropA : (e₁ ++ zeroMR :: e₂).drop i = e₂.drop (i - e₁.length - 1) := by
      rw [List.drop_append_eq_append_drop, List.drop_eq_nil_of_le (by omega),
        List.nil_append, ← List.drop_succ_cons (n := i - e₁.length - 1)
          (a := zeroMR) (l := e₂)]
      congr 1
      omega
    have hdropB : (e₁ ++ e₂).drop (i - 1) = e₂.drop (i - e₁.length - 1) := by
      rw [List.drop_append_eq_append_drop, List.drop_eq_nil_of_le (by omega),
        List.nil_append]
      congr 1
      omega
    rw [hphi, skipZeros, skipZeros, hdropA, hdropB]
    constructor
    · rw [phiIdx, if_neg (by omega)]
      omega
    · omega

theorem phiSt_seqPos (p : Nat) (st : PWState) :
    (phiSt p st).seqPos = st.seqPos := rfl

theorem phiSt_hasMD (p : Nat) (st : PWState) :
    (phiSt p st).hasMD = st.hasMD := rfl

theorem phiSt_mdSubPos (p : Nat) (st : PWState) :
    (phiSt p st).mdSubPos = st.mdSubPos := rfl

theorem phiSt_mdIndex (p : Nat) (st : PWState) :
    (phiSt p st).mdIndex = phiIdx p st.mdIndex := rfl

theorem emitMX_phiSt (p : Nat) (cfg : HLConfig) (a b : Char) (m : Bool)
    (st : PWState) :
    emitMX cfg a b m (phiSt p st) = phiSt p (emitMX cfg a b m st) := rfl

theorem stepMX_ins (e₁ e₂ : List MDTagEntry) (seq : List Char) (opType : Char)
    (cfg : HLConfig) (st : PWState) :
    stepMX seq opType cfg (e₁ ++ e₂) (phiSt e₁.length st)
      = (stepMX seq opType cfg (e₁ ++ zeroMR :: e₂) st).map (phiSt e₁.length) := by
  obtain ⟨hskip, hnp⟩ := skipZeros_ins e₁ e₂ st.mdIndex
  rw [stepMX, stepMX]
  simp only [phiSt_seqPos, phiSt_hasMD, phiSt_mdIndex, phiSt_mdSubPos]
  rw [hskip]
  by_cases hseq : seq.length ≤ st.seqPos
  · rw [if_pos hseq, if_pos hseq]
    rfl
  · rw [if_neg hseq, if_neg hseq]
    by_cases hmd : st.hasMD = true
    · rw [if_pos hmd, if_pos hmd]
      by_cases hexh : (e₁ ++ zeroMR :: e₂).length
          ≤ skipZeros (e₁ ++ zeroMR :: e₂) st.mdIndex
      · have hexhB : (e₁ ++ e₂).length
            ≤ phiIdx e₁.length (skipZeros (e₁ ++ zeroMR :: e₂) st.mdIndex) := by
          have hlen : (e₁ ++ zeroMR :: e₂).length = (e₁ ++ e₂).length + 1 := by
            simp only [List.length_append, List.length_cons]
            omega
          rw [phiIdx]
          split
          · have hple : e₁.length ≤ (e₁ ++ e₂).length := by simp
            omega
          · omega
        rw [if_pos hexh, if_pos hexhB]
        rfl
      · have hexhB : ¬ (e₁ ++ e₂).length
            ≤ phiIdx e₁.length (skipZeros (e₁ ++ zeroMR :: e₂) st.mdIndex) := by
          have hlen : (e₁ ++ zeroMR :: e₂).length = (e₁ ++ e₂).length + 1 := by
            simp only [List.length_append, List.length_cons]
            omega
          have hple : e₁.length ≤ (e₁ ++ e₂).length := by simp
          rw [phiIdx]
          split
          · next hle =>
            omega
          · omega
        rw [if_neg hexh, if_neg hexhB]
        rw [← getD_ins e₁ e₂ _ hnp default]
        by_cases hdel : ((e₁ ++ zeroMR :: e₂).getD
            (skipZeros (e₁ ++ zeroMR :: e₂) st.mdIndex) default).isDel = true
        · rw [if_pos hdel, if_pos hdel]
          rfl
        · rw [if_neg hdel, if_neg hdel]
          by_cases hnum : 0 < ((e₁ ++ zeroMR :: e₂).getD
              (skipZeros (e₁ ++ zeroMR :: e₂) st.mdIndex) default).num
          · rw [if_pos hnum, if_pos hnum]
            by_cases hsub : st.mdSubPos + 1 = ((e₁ ++ zeroMR :: e₂).getD
                (skipZeros (e₁ ++ zeroMR :: e₂) st.mdIndex) default).num
            · rw [if_pos hsub, if_pos hsub, phiIdx_succ hnp]
              rfl
            · rw [if_neg hsub, if_neg hsub]
              rfl
          · rw [if_neg hnum, if_neg hnum, phiIdx_succ hnp]
            rfl
    · rw [if_neg hmd, if_neg hmd]
      by_cases hop : opType = '='
      · rw [if_pos hop, if_pos hop]
        rfl
      · rw [if_neg hop, if_neg hop]
        rfl

theorem runMX_ins (e₁ e₂ : List MDTagEntry) (seq : List Char) (opType : Char)
    (cfg : HLConfig) :
    ∀ (n : Nat) (st : PWState),
      runMX seq opType cfg (e₁ ++ e₂) n (phiSt e₁.length st)
        = (runMX seq opType cfg (e₁ ++ zeroMR :: e₂) n st).map (phiSt e₁.length) := by
  intro n
  induction n with
  | zero =>
    intro st
    rw [runMX, runMX]
    rfl
  | succ n ih =>
    intro st
    rw [runMX, runMX, stepMX_ins]
    cases hstep : stepMX seq opType cfg (e₁ ++ zeroMR :: e₂) st with
    | error e => rfl
    | ok st₁ =>
      simp only [Except.map]
      exact ih st₁

theorem runI_ins (p : Nat) (seq : List Char) :
    ∀ (n : Nat) (st : PWState),
      runI seq n (phiSt p st) = (runI seq n st).map (phiSt p) := by
  intro n
  induction n with
  | zero =>
    intro st
    rw [runI, runI]
    rfl
  | succ n ih =>
    intro st
    rw [runI, runI]
    simp only [phiSt_seqPos]
    by_cases hseq : seq.length ≤ st.seqPos
    · rw [if_pos hseq, if_pos hseq]
      rfl
    · rw [if_neg hseq, if_neg hseq]
      have hst : ({ phiSt p st with
            alnT := (phiSt p st).alnT ++ [TrackItem.cell (seq.getD st.seqPos 'N') true],
            refT := (phiSt p st).refT ++ [TrackItem.cell '-' true],
            mark := (phiSt p st).mark ++ [' '],
            seqPos := st.seqPos + 1 } : PWState)
          = phiSt p { st with
            alnT := st.alnT ++ [TrackItem.cell (seq.getD st.seqPos 'N') true],
            refT := st.refT ++ [TrackItem.cell '-' true],
            mark := st.mark ++ [' '],
            seqPos := st.seqPos + 1 } := rfl
      rw [hst]
      exact ih _

theorem runS_ins (p : Nat) (seq : List Char) :
    ∀ (n : Nat) (st : PWState),
      runS seq n (phiSt p st) = (runS seq n st).map (phiSt p) := by
  intro n
  induction n with
  | zero =>
    intro st
    rw [runS, runS]
    rfl
  | succ n ih =>
    intro st
    rw [runS, runS]
    simp only [phiSt_seqPos]
    by_cases hseq : seq.length ≤ st.seqPos
    · rw [if_pos hseq, if_pos hseq]
      rfl
    · rw [if_neg hseq, if_neg hseq]
      have hst : ({ phiSt p st with
            alnT := (phiSt p st).alnT ++ [TrackItem.cell (seq.getD st.seqPos 'N') true],
            refT := (phiSt p st).refT ++ [TrackItem.cell '.' false],
            mark := (phiSt p st).mark ++ [' '],
            seqPos := st.seqPos + 1 } : PWState)
          = phiSt p { st with
            alnT := st.alnT ++ [TrackItem.cell (seq.getD st.seqPos 'N') true],
            refT := st.refT ++ [TrackItem.cell '.' false],
            mark := st.mark ++ [' '],
            seqPos := st.seqPos + 1 } := rfl
      rw [hst]
      exact ih _

theorem runN_ins (p n : Nat) (st : PWState) :
    runN n (phiSt p st) = phiSt p (runN n st) := by
  rw [runN, runN]
  split <;> rfl

theorem runP_ins (p n : Nat) (st : PWState) :
    runP n (phiSt p st) = phiSt p (runP n st) := rfl

theorem runD_ins (e₁ e₂ : List MDTagEntry) (dLen : Nat) :
    ∀ (found : Nat) (st : PWState),
      runD (e₁ ++ e₂) dLen found (phiSt e₁.length st)
        = (runD (e₁ ++ zeroMR :: e₂) dLen found st).map (phiSt e₁.length) := by
  intro found₀ st₀
  induction found₀, st₀ using runD.induct (e₁ ++ zeroMR :: e₂) dLen with
  | case1 found st h hi =>
    obtain ⟨hskip, hnp⟩ := skipZeros_ins e₁ e₂ st.mdIndex
    have hexhB : (e₁ ++ e₂).length
        ≤ phiIdx e₁.length (skipZeros (e₁ ++ zeroMR :: e₂) st.mdIndex) := by
      have hlen : (e₁ ++ zeroMR :: e₂).length = (e₁ ++ e₂).length + 1 := by
        simp only [List.length_append, List.length_cons]
        omega
      have hple : e₁.length ≤ (e₁ ++ e₂).length := by simp
      rw [phiIdx]
      split <;> omega
    conv_lhs => rw [runD]
    conv_rhs => rw [runD]
    simp only [phiSt_mdIndex, phiSt_mdSubPos]
    rw [hskip]
    rw [dif_pos h, dif_pos h, dif_pos hi, dif_pos hexhB]
    rfl
  | case2 found st h hi hdel hadv ih =>
    obtain ⟨hskip, hnp⟩ := skipZeros_ins e₁ e₂ st.mdIndex
    have hexhB : ¬ (e₁ ++ e₂).length
        ≤ phiIdx e₁.length (skipZeros (e₁ ++ zeroMR :: e₂) st.mdIndex) := by
      have hlen : (e₁ ++ zeroMR :: e₂).length = (e₁ ++ e₂).length + 1 := by
        simp only [List.length_append, List.length_cons]
        omega
      have hple : e₁.length ≤ (e₁ ++ e₂).length := by simp
      rw [phiIdx]
      split <;> omega
    conv_lhs => rw [runD]
    conv_rhs => rw [runD]
    simp only [phiSt_mdIndex, phiSt_mdSubPos]
    rw [hskip]
    rw [dif_pos h, dif_pos h, dif_neg hi, dif_neg hexhB,
      ← getD_ins e₁ e₂ _ hnp default]
    rw [if_pos hdel, if_pos hdel, dif_pos hadv, dif_pos hadv, phiIdx_succ hnp]
    exact ih
  | case3 found st h hi hdel hadv ih =>
    obtain ⟨hskip, hnp⟩ := skipZeros_ins e₁ e₂ st.mdIndex
    have hexhB : ¬ (e₁ ++ e₂).length
        ≤ phiIdx e₁.length (skipZeros (e₁ ++ zeroMR :: e₂) st.mdIndex) := by
      have hlen : (e₁ ++ zeroMR :: e₂).length = (e₁ ++ e₂).length + 1 := by
        simp only [List.length_append, List.length_cons]
        omega
      have hple : e₁.length ≤ (e₁ ++ e₂).length := by simp
      rw [phiIdx]
      split <;> omega
    conv_lhs => rw [runD]
    conv_rhs => rw [runD]
    simp only [phiSt_mdIndex, phiSt_mdSubPos]
    rw [hskip]
    rw [dif_pos h, dif_pos h, dif_neg hi, dif_neg hexhB,
      ← getD_ins e₁ e₂ _ hnp default]
    rw [if_pos hdel, if_pos hdel, dif_neg hadv, dif_neg hadv]
    exact ih
  | case4 found st h hi hdel =>
    obtain ⟨hskip, hnp⟩ := skipZeros_ins e₁ e₂ st.mdIndex
    have hexhB : ¬ (e₁ ++ e₂).length
        ≤ phiIdx e₁.length (skipZeros (e₁ ++ zeroMR :: e₂) st.mdIndex) := by
      have hlen : (e₁ ++ zeroMR :: e₂).length = (e₁ ++ e₂).length + 1 := by
        simp only [List.length_append, List.length_cons]
        omega
      have hple : e₁.length ≤ (e₁ ++ e₂).length := by simp
      rw [phiIdx]
      split <;> omega
    conv_lhs => rw [runD]
    conv_rhs => rw [runD]
    simp only [phiSt_mdIndex, phiSt_mdSubPos]
    rw [hskip]
    rw [dif_pos h, dif_pos h, dif_neg hi, dif_neg hexhB,
      ← getD_ins e₁ e₂ _ hnp default]
    rw [if_neg hdel, if_neg hdel]
    rfl
  | case5 found st h =>
    conv_lhs => rw [runD]
    conv_rhs => rw [runD]
    rw [dif_neg h, dif_neg h]
    rfl

theorem processOp_ins (e₁ e₂ : List MDTagEntry) (seq : List Char)
    (cfg : HLConfig) (op : CigarOp) (st : PWState) :
    processOp seq cfg (e₁ ++ e₂) op (phiSt e₁.length st)
      = (processOp seq cfg (e₁ ++ zeroMR :: e₂) op st).map (phiSt e₁.length) := by
  rw [processOp, processOp]
  split
  · exact runMX_ins e₁ e₂ seq op.op cfg op.length st
  · split
    · exact runI_ins e₁.length seq op.length st
    · split
      · simp only [phiSt_hasMD]
        split
        · exact runD_ins e₁ e₂ op.length 0 st
        · rfl
      · split
        · rw [runN_ins]
          rfl
        · split
          · exact runS_ins e₁.length seq op.length st
          · split
            · rfl
            · split
              · rw [show runP op.length (phiSt e₁.length st)
                    = phiSt e₁.length (runP op.length st) from rfl]
                rfl
              · rfl

theorem runOps_ins (e₁ e₂ : List MDTagEntry) (seq : List Char)
    (cfg : HLConfig) :
    ∀ (ops : List CigarOp) (st : PWState),
      runOps seq cfg (e₁ ++ e₂) ops (phiSt e₁.length st)
        = (runOps seq cfg (e₁ ++ zeroMR :: e₂) ops st).map (phiSt e₁.length) := by
  intro ops
  induction ops with
  | nil =>
    intro st
    rw [runOps, runOps]
    rfl
  | cons op rest ih =>
    intro st
    rw [runOps, runOps, processOp_ins]
    cases hstep : processOp seq cfg (e₁ ++ zeroMR :: e₂) op st with
    | error e => rfl
    | ok st₁ =>
      simp only [Except.map]
      exact ih st₁

theorem samToPairwise_ins (seq cigar mdA mdB : List Char) (cfg : HLConfig)
    (e₁ e₂ : List MDTagEntry)
    (hA : parseMDTag mdA = .ok (e₁ ++ zeroMR :: e₂))
    (hB : parseMDTag mdB = .ok (e₁ ++ e₂))
    (hA0 : mdA ≠ []) (hB0 : mdB ≠ []) :
    samToPairwise seq cigar mdA cfg = samToPairwise seq cigar mdB cfg := by
  have hAne : mdA.isEmpty = false := by
    cases mdA with
    | nil => exact absurd rfl hA0
    | cons c t => rfl
  have hBne : mdB.isEmpty = false := by
    cases mdB with
    | nil => exact absurd rfl hB0
    | cons c t => rfl
  rw [samToPairwise, samToPairwise]
  cases hc : parseCigar cigar with
  | error e => rfl
  | ok ops =>
    simp only [hAne, hBne, Bool.false_eq_true, if_false, hA, hB]
    have h0 : (⟨0, 0, 0, true, [], [], []⟩ : PWState)
        = phiSt e₁.length ⟨0, 0, 0, true, [], [], []⟩ := by
      rw [phiSt]
      simp [phiIdx]
    have hrun := runOps_ins e₁ e₂ seq cfg ops ⟨0, 0, 0, true, [], [], []⟩
    rw [← h0] at hrun
    rw [hrun]
    cases hres : runOps seq cfg (e₁ ++ zeroMR :: e₂) ops
        ⟨0, 0, 0, true, [], [], []⟩ with
    | error e => rfl
    | ok st => rfl

/-! ### Claim theorems -/

/-- C1: For every aligned position produced under an M/=/X CIGAR operation
(the only operations that consult `highlightDecision`, via `emitMX` in
`stepMX`), with a known mutation `(R, A)` configured: the mismatch with
reference `R` and query `A` is not highlighted and its marker is the
configured mark character; a mismatch with reference `R` but query `≠ A`
is highlighted; a mismatch whose reference is not `R` is highlighted; a
match whose base is `R` is highlighted (marker stays `|`); every other
match is not highlighted with marker `|`.  With no known mutation, every
mismatch is highlighted and every match is plain. -/
theorem C1_known_mutation_highlighting (R A x y mk : Char) :
    highlightDecision true true R A R A mk = (false, mk) ∧
    (y ≠ A → highlightDecision true true R y R A mk = (true, ' ')) ∧
    (x ≠ R → highlightDecision true true x y R A mk = (true, ' ')) ∧
    highlightDecision false true R y R A mk = (true, '|') ∧
    (x ≠ R → highlightDecision false true x y R A mk = (false, '|')) ∧
    highlightDecision true false x y R A mk = (true, ' ') ∧
    highlightDecision false false x y R A mk = (false, '|') := by
  refine ⟨?_, fun h => ?_, fun h => ?_, ?_, fun h => ?_, ?_, ?_⟩ <;>
    simp [highlightDecision, *]

/-- Witness for C1 at the concrete configuration `C>T` with mark `.`. -/
theorem C1_known_mutation_highlighting_witness :
    highlightDecision true true 'C' 'T' 'C' 'T' '.' = (false, '.') ∧
    highlightDecision true true 'C' 'A' 'C' 'T' '.' = (true, ' ') ∧
    highlightDecision true true 'G' 'A' 'C' 'T' '.' = (true, ' ') ∧
    highlightDecision false true 'C' 'A' 'C' 'T' '.' = (true, '|') ∧
    highlightDecision false true 'G' 'A' 'C' 'T' '.' = (false, '|') ∧
    highlightDecision true false 'G' 'A' 'C' 'T' '.' = (true, ' ') ∧
    highlightDecision false false 'G' 'A' 'C' 'T' '.' = (false, '|') :=
  ⟨(C1_known_mutation_highlighting 'C' 'T' 'G' 'A' '.').1,
   (C1_known_mutation_highlighting 'C' 'T' 'G' 'A' '.').2.1 (by decide),
   (C1_known_mutation_highlighting 'C' 'T' 'G' 'A' '.').2.2.1 (by decide),
   (C1_known_mutation_highlighting 'C' 'T' 'G' 'A' '.').2.2.2.1,
   (C1_known_mutation_highlighting 'C' 'T' 'G' 'A' '.').2.2.2.2.1 (by decide),
   (C1_known_mutation_highlighting 'C' 'T' 'G' 'A' '.').2.2.2.2.2.1,
   (C1_known_mutation_highlighting 'C' 'T' 'G' 'A' '.').2.2.2.2.2.2⟩

/-- C2 counterexample: the claim says a MatchRun MD entry encountered
while processing a CIGAR `D` operation yields a fatal error, but a
zero-count MatchRun entry (from the explicit `0` in MD `0^AG2`) is
encountered at the MD cursor during the `D` operation of CIGAR `2D2M`
and is silently skipped: the record succeeds. -/
theorem C2_counterexample :
    parseMDTag ['0', '^', 'A', 'G', '2']
        = .ok [⟨0, [], false⟩, ⟨0, ['A', 'G'], true⟩, ⟨2, [], false⟩] ∧
    obs (samToPairwise ['A', 'C'] ['2', 'D', '2', 'M'] ['0', '^', 'A', 'G', '2']
        ⟨false, 'C', 'T', '.'⟩)
      = .ok (['A', 'G', 'A', 'C'], ['-', '-', 'A', 'C'], [' ', ' ', '|', '|']) := by
  constructor
  · decide
  · simp [samToPairwise, parseCigar, parseCigarAux, parseMDTag, parseMDTagAux,
      runOps, processOp, runMX, stepMX, runI, runS, runN, runP, runD, skipZeros,
      countLeadingSkippable, emitMX, highlightDecision, flushNum, digitsVal,
      isDigitChar, isLetterChar, isCigarOpChar, isSkippableMD, obs, trackChars,
      plainChars, encodeNat, encodeNatAux, Except.map]

/-- C2 (amended): a Deletion MD entry at the (post-placeholder-skip) MD
cursor during an M/=/X position is a fatal per-record error, and a
non-placeholder MatchRun (positive count) or Mismatch entry at the cursor
during a D operation is a fatal per-record error; zero-count MatchRun
placeholders are skipped silently in both paths.  The last two conjuncts
show the errors propagating to `samToPairwise` on concrete records. -/
theorem C2_cigar_md_inconsistency :
    (∀ (seq : List Char) (opType : Char) (cfg : HLConfig)
        (entries : List MDTagEntry) (st : PWState),
      st.hasMD = true → st.seqPos < seq.length →
      skipZeros entries st.mdIndex < entries.length →
      (entries.getD (skipZeros entries st.mdIndex) default).isDel = true →
      stepMX seq opType cfg entries st
        = .error "MD tag indicates deletion during CIGAR M/=/X") ∧
    (∀ (entries : List MDTagEntry) (dLen found : Nat) (st : PWState),
      found < dLen →
      skipZeros entries st.mdIndex < entries.length →
      (entries.getD (skipZeros entries st.mdIndex) default).isDel = false →
      runD entries dLen found st
        = .error "MD tag indicates match or mismatch during CIGAR D") ∧
    samToPairwise ['A', 'C'] ['1', 'M', '1', 'M'] ['^', 'A', 'G']
        ⟨false, 'C', 'T', '.'⟩
      = .error "MD tag indicates deletion during CIGAR M/=/X" ∧
    samToPairwise ['A', 'C'] ['2', 'D', '2', 'M'] ['2', '^', 'A', 'G']
        ⟨false, 'C', 'T', '.'⟩
      = .error "MD tag indicates match or mismatch during CIGAR D" := by
  refine ⟨?_, ?_, ?_, ?_⟩
  · intro seq opType cfg entries st hmd hseq hskip hdel
    rw [stepMX, if_neg (by omega), if_pos hmd, if_neg (by omega), if_pos hdel]
  · intro entries dLen found st hfound hskip hdel
    rw [runD, dif_pos hfound, dif_neg (by omega),
      if_neg (by rw [hdel]; exact Bool.false_ne_true)]
  · decide
  · simp [samToPairwise, parseCigar, parseCigarAux, parseMDTag, parseMDTagAux,
      runOps, processOp, runMX, stepMX, runI, runS, runN, runP, runD, skipZeros,
      countLeadingSkippable, emitMX, highlightDecision, flushNum, digitsVal,
      isDigitChar, isLetterChar, isCigarOpChar, isSkippableMD, Except.map]

/-- Witness for C2: the two inconsistency errors fire on concrete states. -/
theorem C2_cigar_md_inconsistency_witness :
    stepMX ['A'] 'M' ⟨false, 'C', 'T', '.'⟩ [⟨0, ['A', 'G'], true⟩]
        ⟨0, 0, 0, true, [], [], []⟩
      = .error "MD tag indicates deletion during CIGAR M/=/X" ∧
    runD [⟨2, [], false⟩] 1 0 ⟨0, 0, 0, true, [], [], []⟩
      = .error "MD tag indicates match or mismatch during CIGAR D" :=
  ⟨(C2_cigar_md_inconsistency).1 ['A'] 'M' ⟨false, 'C', 'T', '.'⟩
      [⟨0, ['A', 'G'], true⟩] ⟨0, 0, 0, true, [], [], []⟩
      rfl (by decide) (by decide) (by decide),
   (C2_cigar_md_inconsistency).2.1 [⟨2, [], false⟩] 1 0
      ⟨0, 0, 0, true, [], [], []⟩ (by decide) (by decide) (by decide)⟩

/-- C3 counterexample: the claim says a position under an `=` operation
is always treated as a match even when MD is exhausted, but at the very
position where exhaustion is detected (sequence `AA`, CIGAR `2=`,
MD `1`), the reference track shows `N` and the marker is a space
(mismatch), not `A` and `|`. -/
theorem C3_counterexample :
    obs (samToPairwise ['A', 'A'] ['2', '='] ['1'] ⟨false, 'C', 'T', '.'⟩)
        = .ok (['A', 'N'], ['A', 'A'], ['|', ' ']) ∧
      (['A', 'N'] : List Char) ≠ ['A', 'A'] ∧ ([' '] : List Char) ≠ ['|'] := by
  refine ⟨by decide, by decide, by decide⟩

/-- C3 (amended): at an M/=/X position with no usable MD information the
reference base is the placeholder `N` and the position is treated as a
mismatch, except that when MD is absent or already disabled (`hasMD`
false) an `=` operation forces a match (reference equals the query base).
At the position where MD exhaustion is first detected (`hasMD` still
true, cursor past the last entry), the position is treated as an `N`
mismatch for all three operations, `=` included. -/
theorem C3_md_exhausted_positions (seq : List Char) (opType : Char)
    (cfg : HLConfig) (entries : List MDTagEntry) (st : PWState)
    (hseq : st.seqPos < seq.length) :
    (st.hasMD = false → opType = '=' →
      stepMX seq opType cfg entries st
        = .ok (emitMX cfg (seq.getD st.seqPos 'N') (seq.getD st.seqPos 'N')
            false st)) ∧
    (st.hasMD = false → opType ≠ '=' →
      stepMX seq opType cfg entries st
        = .ok (emitMX cfg (seq.getD st.seqPos 'N') 'N' true st)) ∧
    (st.hasMD = true → entries.length ≤ skipZeros entries st.mdIndex →
      stepMX seq opType cfg entries st
        = .ok (emitMX cfg (seq.getD st.seqPos 'N') 'N' true
            { st with mdIndex := skipZeros entries st.mdIndex,
                      hasMD := false })) := by
  refine ⟨fun hmd hop => ?_, fun hmd hop => ?_, fun hmd hexh => ?_⟩
  · rw [stepMX, if_neg (by omega), if_neg (by rw [hmd]; exact Bool.false_ne_true),
      if_pos hop]
  · rw [stepMX, if_neg (by omega), if_neg (by rw [hmd]; exact Bool.false_ne_true),
      if_neg hop]
  · rw [stepMX, if_neg (by omega), if_pos hmd, if_pos hexh]

/-- Witness for C3 on concrete states: an `=` position without MD is a
match, an `M` position without MD is an `N` mismatch, and an `=` position
at MD exhaustion is an `N` mismatch. -/
theorem C3_md_exhausted_positions_witness :
    stepMX ['A'] '=' ⟨false, 'C', 'T', '.'⟩ [] ⟨0, 0, 0, false, [], [], []⟩
        = .ok (emitMX ⟨false, 'C', 'T', '.'⟩ 'A' 'A' false
            ⟨0, 0, 0, false, [], [], []⟩) ∧
    stepMX ['A'] 'M' ⟨false, 'C', 'T', '.'⟩ [] ⟨0, 0, 0, false, [], [], []⟩
        = .ok (emitMX ⟨false, 'C', 'T', '.'⟩ 'A' 'N' true
            ⟨0, 0, 0, false, [], [], []⟩) ∧
    stepMX ['A'] '=' ⟨false, 'C', 'T', '.'⟩ [] ⟨0, 0, 0, true, [], [], []⟩
        = .ok (emitMX ⟨false, 'C', 'T', '.'⟩ 'A' 'N' true
            ⟨0, 0, 0, false, [], [], []⟩) := by
  refine ⟨?_, ?_, ?_⟩
  · exact (C3_md_exhausted_positions ['A'] '=' ⟨false, 'C', 'T', '.'⟩ []
      ⟨0, 0, 0, false, [], [], []⟩ (by decide)).1 rfl rfl
  · exact (C3_md_exhausted_positions ['A'] 'M' ⟨false, 'C', 'T', '.'⟩ []
      ⟨0, 0, 0, false, [], [], []⟩ (by decide)).2.1 rfl (by decide)
  · exact (C3_md_exhausted_positions ['A'] '=' ⟨false, 'C', 'T', '.'⟩ []
      ⟨0, 0, 0, true, [], [], []⟩ (by decide)).2.2 rfl (by decide)

/-- C4: sequence of 6 bases, CIGAR `3M2D3M`, MD `3^AG3`: the deletion
site contributes the literal reference characters `A` then `G`, the query
track gets two gaps and the marker track two spaces (first conjunct,
styling markup ignored via `obs`).  A Deletion MD entry can be consumed
across several `D` operations (second conjunct: CIGAR `1M1D1D1M` with MD
`1^AG1`), one `D` operation can span several Deletion entries (third
conjunct: CIGAR `1M2D1M` with MD `1^A0^G1`), and processing a `D`
operation never advances the query cursor (last conjunct). -/
theorem C4_deletion_reconstruction :
    obs (samToPairwise ['A', 'C', 'G', 'T', 'G', 'A']
          ['3', 'M', '2', 'D', '3', 'M'] ['3', '^', 'A', 'G', '3']
          ⟨false, 'C', 'T', '.'⟩)
      = .ok (['A', 'C', 'G', 'A', 'G', 'T', 'G', 'A'],
             ['A', 'C', 'G', '-', '-', 'T', 'G', 'A'],
             ['|', '|', '|', ' ', ' ', '|', '|', '|']) ∧
    obs (samToPairwise ['A', 'C'] ['1', 'M', '1', 'D', '1', 'D', '1', 'M']
          ['1', '^', 'A', 'G', '1'] ⟨false, 'C', 'T', '.'⟩)
      = .ok (['A', 'A', 'G', 'C'], ['A', '-', '-', 'C'],
             ['|', ' ', ' ', '|']) ∧
    obs (samToPairwise ['A', 'C'] ['1', 'M', '2', 'D', '1', 'M']
          ['1', '^', 'A', '0', '^', 'G', '1'] ⟨false, 'C', 'T', '.'⟩)
      = .ok (['A', 'A', 'G', 'C'], ['A', '-', '-', 'C'],
             ['|', ' ', ' ', '|']) ∧
    (∀ (entries : List MDTagEntry) (dLen found : Nat) (st st' : PWState),
      runD entries dLen found st = .ok st' → st'.seqPos = st.seqPos) := by
  refine ⟨?_, ?_, ?_, fun entries dLen found st st' h =>
    runD_seqPos entries dLen found st st' h⟩ <;>
    simp [samToPairwise, parseCigar, parseCigarAux, parseMDTag, parseMDTagAux,
      runOps, processOp, runMX, stepMX, runI, runS, runN, runP, runD, skipZeros,
      countLeadingSkippable, emitMX, highlightDecision, flushNum, digitsVal,
      isDigitChar, isLetterChar, isCigarOpChar, isSkippableMD, obs, trackChars,
      plainChars, encodeNat, encodeNatAux, Except.map]

/-- Witness for C4's last conjunct: a concrete `D` run (two bases of the
deletion entry `AG`) leaves the query cursor at its initial value 5. -/
theorem C4_deletion_reconstruction_witness :
    runD [⟨0, ['A', 'G'], true⟩] 2 0 ⟨5, 0, 0, true, [], [], []⟩
        = .ok ⟨5, 1, 0, true, [TrackItem.cell 'A' true, TrackItem.cell 'G' true],
            [TrackItem.cell '-' true, TrackItem.cell '-' true], [' ', ' ']⟩ ∧
    (⟨5, 1, 0, true, [TrackItem.cell 'A' true, TrackItem.cell 'G' true],
        [TrackItem.cell '-' true, TrackItem.cell '-' true],
        [' ', ' ']⟩ : PWState).seqPos
      = (⟨5, 0, 0, true, [], [], []⟩ : PWState).seqPos := by
  have hrun : runD [⟨0, ['A', 'G'], true⟩] 2 0 ⟨5, 0, 0, true, [], [], []⟩
      = .ok ⟨5, 1, 0, true, [TrackItem.cell 'A' true, TrackItem.cell 'G' true],
          [TrackItem.cell '-' true, TrackItem.cell '-' true], [' ', ' ']⟩ := by
    simp [runD, skipZeros, countLeadingSkippable, isSkippableMD]
  exact ⟨hrun, C4_deletion_reconstruction.2.2.2
    [⟨0, ['A', 'G'], true⟩] 2 0 _ _ hrun⟩

/-- C5: whenever the query-consuming CIGAR operations (M, I, S, =, X)
demand more bases than the query sequence contains, `samToPairwise`
returns an error value (`isOk = false`) rather than reading out of
bounds: each of the M/=/X, I and S loops checks the cursor against the
sequence length before every access. -/
theorem C5_sequence_too_short (seq cigar mdTag : List Char)
    (cfg : HLConfig) (ops : List CigarOp)
    (hparse : parseCigar cigar = .ok ops)
    (hshort : seq.length < seqDemand ops) :
    (samToPairwise seq cigar mdTag cfg).isOk = false := by
  have key : ∀ (b : Bool) (entries : List MDTagEntry),
      ∃ msg, runOps seq cfg entries ops ⟨0, 0, 0, b, [], [], []⟩
        = .error msg := by
    intro b entries
    cases hres : runOps seq cfg entries ops ⟨0, 0, 0, b, [], [], []⟩ with
    | error e => exact ⟨e, rfl⟩
    | ok st =>
      exfalso
      obtain ⟨h1, h2⟩ := runOps_seqPos hres
      simp only at h1
      have := h2 (by omega)
      omega
  rw [samToPairwise, hparse]
  dsimp only
  by_cases hmd : mdTag.isEmpty = true
  · rw [if_pos hmd]
    obtain ⟨msg, hmsg⟩ := key false []
    dsimp only
    rw [hmsg]
    rfl
  · rw [if_neg hmd]
    cases hp : parseMDTag mdTag with
    | error e =>
      obtain ⟨msg, hmsg⟩ := key false []
      dsimp only
      rw [hmsg]
      rfl
    | ok es =>
      obtain ⟨msg, hmsg⟩ := key true es
      dsimp only
      rw [hmsg]
      rfl

/-- Witness for C5: an empty sequence with CIGAR `1M` yields an error. -/
theorem C5_sequence_too_short_witness :
    (samToPairwise [] ['1', 'M'] [] ⟨false, 'C', 'T', '.'⟩).isOk = false :=
  C5_sequence_too_short [] ['1', 'M'] [] ⟨false, 'C', 'T', '.'⟩
    [⟨1, 'M'⟩] (by decide) (by decide)

/-- C6 counterexample: `00` is accepted by `parseMDTag` (one match-run
entry of count 0), but re-concatenating the decoded entries gives `0`,
not the original string `00`: the round trip fails on redundant leading
zeros. -/
theorem C6_counterexample :
    parseMDTag ['0', '0'] = .ok [⟨0, [], false⟩] ∧
    encodeEntries [⟨0, [], false⟩] = ['0'] ∧
    (['0'] : List Char) ≠ ['0', '0'] := by
  refine ⟨by decide, by decide, by decide⟩

/-- C6 (amended): for every MD tag string accepted by `parseMDTag` in
which no match-count token carries a redundant leading zero (checked by
`noLZAux`; a lone `0` token is allowed), re-concatenating the decoded
entries — decimal digits for each match run, the literal base for each
mismatch, `^` plus the bases for each deletion — reproduces the input. -/
theorem C6_md_roundtrip (s : List Char) (entries : List MDTagEntry)
    (hp : parseMDTag s = .ok entries) (hlz : noLZAux s false = true) :
    encodeEntries entries = s :=
  parseMDTag_roundtrip s entries hp hlz

/-- Witness for C6 on the MD tag `10A5^GT0`. -/
theorem C6_md_roundtrip_witness :
    encodeEntries [⟨10, [], false⟩, ⟨0, ['A'], false⟩, ⟨5, [], false⟩,
        ⟨0, ['G', 'T'], true⟩, ⟨0, [], false⟩]
      = ['1', '0', 'A', '5', '^', 'G', 'T', '0'] :=
  C6_md_roundtrip ['1', '0', 'A', '5', '^', 'G', 'T', '0']
    [⟨10, [], false⟩, ⟨0, ['A'], false⟩, ⟨5, [], false⟩,
      ⟨0, ['G', 'T'], true⟩, ⟨0, [], false⟩] (by decide) (by decide)

/-- C7 counterexample: `parseCigar` accepts the unmapped marker `*`
(empty operation list) and `05M` (one `5M` operation), but re-encoding
gives the empty string and `5M` respectively, not the original inputs. -/
theorem C7_counterexample :
    (parseCigar ['*'] = .ok [] ∧ encodeOps [] = [] ∧
      ([] : List Char) ≠ ['*']) ∧
    (parseCigar ['0', '5', 'M'] = .ok [⟨5, 'M'⟩] ∧
      encodeOps [⟨5, 'M'⟩] = ['5', 'M'] ∧
      (['5', 'M'] : List Char) ≠ ['0', '5', 'M']) := by
  refine ⟨⟨by decide, by decide, by decide⟩, ⟨by decide, by decide, by decide⟩⟩

/-- C7 (amended): for every CIGAR string accepted by `parseCigar` other
than the unmapped marker `*`, with no redundant leading zeros in the
lengths, concatenating each operation's decimal length and operation
character reproduces the input. -/
theorem C7_cigar_roundtrip (s : List Char) (ops : List CigarOp)
    (hp : parseCigar s = .ok ops) (hstar : s ≠ ['*'])
    (hlz : noLZAux s false = true) :
    encodeOps ops = s :=
  parseCigar_roundtrip s ops hp hstar hlz

/-- Witness for C7 on the CIGAR string `10M2D3X`. -/
theorem C7_cigar_roundtrip_witness :
    encodeOps [⟨10, 'M'⟩, ⟨2, 'D'⟩, ⟨3, 'X'⟩]
      = ['1', '0', 'M', '2', 'D', '3', 'X'] :=
  C7_cigar_roundtrip ['1', '0', 'M', '2', 'D', '3', 'X']
    [⟨10, 'M'⟩, ⟨2, 'D'⟩, ⟨3, 'X'⟩] (by decide) (by decide) (by decide)

/-- C8: an `N` operation longer than the threshold (20) contributes one
condensed block to each track — 5 placeholder characters on each side of
the literal annotation `..<length>nt..` — with the marker track getting
spaces matching the block's display width, while an `N` operation of
length at most 20 contributes one placeholder per base (`N` on the
reference track, `.` on the query track, spaces on the marker track).
Concretely, length 25 yields the annotation `..25nt..` and display width
18, and length 15 yields 15 individual placeholders. -/
theorem C8_intron_condensation :
    (∀ (n : Nat) (st : PWState), minIntronCompressLength < n →
      (runN n st).refT = st.refT ++ [.condensed 'N' (condensedMiddle n)] ∧
      (runN n st).alnT = st.alnT ++ [.condensed '.' (condensedMiddle n)] ∧
      (runN n st).mark = st.mark ++
        List.replicate (condensedNSEdgeLength * 2 + (condensedMiddle n).length)
          ' ' ∧
      plainChars (.condensed 'N' (condensedMiddle n))
        = List.replicate 5 'N' ++ (['.', '.'] ++ encodeNat n ++
            ['n', 't', '.', '.']) ++ List.replicate 5 'N') ∧
    (∀ (n : Nat) (st : PWState), n ≤ minIntronCompressLength →
      (runN n st).refT = st.refT ++ List.replicate n (.cell 'N' false) ∧
      (runN n st).alnT = st.alnT ++ List.replicate n (.cell '.' false) ∧
      (runN n st).mark = st.mark ++ List.replicate n ' ') ∧
    condensedMiddle 25 = ['.', '.', '2', '5', 'n', 't', '.', '.'] ∧
    (runN 25 ⟨0, 0, 0, true, [], [], []⟩).mark = List.replicate 18 ' ' ∧
    trackChars (runN 15 ⟨0, 0, 0, true, [], [], []⟩).refT
      = List.replicate 15 'N' ∧
    trackChars (runN 15 ⟨0, 0, 0, true, [], [], []⟩).alnT
      = List.replicate 15 '.' := by
  refine ⟨fun n st h => ?_, fun n st h => ?_, by decide, ?_, ?_, ?_⟩
  · rw [runN, if_pos h]
    exact ⟨rfl, rfl, rfl, rfl⟩
  · rw [runN, if_neg (by omega)]
    exact ⟨rfl, rfl, rfl⟩
  · decide
  · decide
  · decide

/-- Witness for C8's quantified parts at lengths 21 and 20. -/
theorem C8_intron_condensation_witness :
    (runN 21 ⟨0, 0, 0, true, [], [], []⟩).refT
        = [] ++ [.condensed 'N' (condensedMiddle 21)] ∧
    (runN 20 ⟨0, 0, 0, true, [], [], []⟩).refT
        = [] ++ List.replicate 20 (.cell 'N' false) :=
  ⟨(C8_intron_condensation.1 21 ⟨0, 0, 0, true, [], [], []⟩ (by decide)).1,
   (C8_intron_condensation.2.1 20 ⟨0, 0, 0, true, [], [], []⟩ (by decide)).1⟩

/-- C9 counterexample: the claim says the reconstruction's output depends
on the supplied quality string at low-quality positions, but two records
identical except for the QUAL field (field 10) — one with high qualities
`II`, one with the lowest possible qualities `!!` (score 0, below any
cutoff) — produce exactly the same output: `samToPairwise` is never given
the quality string and no low-confidence styling exists. -/
theorem C9_counterexample :
    processRecord [['r'], ['0'], ['c'], ['1'], ['6', '0'], ['2', 'M'], ['*'],
        ['0'], ['0'], ['A', 'C'], ['I', 'I'],
        ['M', 'D', ':', 'Z', ':', '2']] ⟨false, 'C', 'T', '.'⟩
      = processRecord [['r'], ['0'], ['c'], ['1'], ['6', '0'], ['2', 'M'], ['*'],
        ['0'], ['0'], ['A', 'C'], ['!', '!'],
        ['M', 'D', ':', 'Z', ':', '2']] ⟨false, 'C', 'T', '.'⟩ ∧
    (['I', 'I'] : List Char) ≠ ['!', '!'] := by
  refine ⟨by decide, by decide⟩

/-- C9 (amended): no quality cutoff exists in the renderer.  The
per-record processing never reads field 10 (QUAL) — `samToPairwise`
receives only SEQ, CIGAR, the MD tag value and the highlight options — so
replacing the QUAL field by anything leaves the output unchanged. -/
theorem C9_quality_independent (fields : List (List Char))
    (qual : List Char) (cfg : HLConfig) :
    processRecord (fields.set 10 qual) cfg = processRecord fields cfg := by
  rw [processRecord, processRecord, List.length_set]
  by_cases hlen : fields.length < 11
  · rw [if_pos hlen, if_pos hlen]
  · rw [if_neg hlen, if_neg hlen]
    have h5 : (fields.set 10 qual).getD 5 [] = fields.getD 5 [] := by
      simp [List.getD_eq_getElem?_getD, List.getElem?_set_ne]
    have h9 : (fields.set 10 qual).getD 9 [] = fields.getD 9 [] := by
      simp [List.getD_eq_getElem?_getD, List.getElem?_set_ne]
    have h11 : (fields.set 10 qual).drop 11 = fields.drop 11 :=
      List.drop_set_of_lt qual fields (by omega)
    rw [h5, h9, h11]

/-- C10 counterexample: removing the explicit `0` token from the MD tag
`3^AG0T2` (giving `3^AGT2`) does not preserve the output: the `0`
separates the deletion run `AG` from the following mismatch base `T`, so
`3^AGT2` parses as a three-base deletion `AGT` and the same record now
aborts with a CIGAR/MD inconsistency instead of succeeding. -/
theorem C10_counterexample :
    obs (samToPairwise ['A', 'C', 'G', 'T', 'G', 'A']
          ['3', 'M', '2', 'D', '3', 'M'] ['3', '^', 'A', 'G', '0', 'T', '2']
          ⟨false, 'C', 'T', '.'⟩)
      = .ok (['A', 'C', 'G', 'A', 'G', 'T', 'G', 'A'],
             ['A', 'C', 'G', '-', '-', 'T', 'G', 'A'],
             ['|', '|', '|', ' ', ' ', ' ', '|', '|']) ∧
    obs (samToPairwise ['A', 'C', 'G', 'T', 'G', 'A']
          ['3', 'M', '2', 'D', '3', 'M'] ['3', '^', 'A', 'G', 'T', '2']
          ⟨false, 'C', 'T', '.'⟩)
      = .error "MD tag indicates deletion during CIGAR M/=/X" := by
  constructor <;>
    simp [samToPairwise, parseCigar, parseCigarAux, parseMDTag, parseMDTagAux,
      runOps, processOp, runMX, stepMX, runI, runS, runN, runP, runD, skipZeros,
      countLeadingSkippable, emitMX, highlightDecision, flushNum, digitsVal,
      isDigitChar, isLetterChar, isCigarOpChar, isSkippableMD, obs, trackChars,
      plainChars, encodeNat, encodeNatAux, Except.map]

/-- C10 (amended): a zero-count match-run placeholder entry never affects
the reconstruction at the entry level: for every query sequence, CIGAR
string and highlight configuration, two non-empty MD tags whose parses
differ exactly by one zero-count match-run entry (`zeroMR`, the parse of
an explicit `0` token) produce identical results, because both
placeholder-skipping loops pass over such entries before the MD cursor is
consumed.  (At the string level this holds when deleting the `0`
character does not change the tokenization, e.g. `0A5` vs `A5`; the
counterexample shows it fails when the `0` separates a deletion from a
following mismatch base.) -/
theorem C10_zero_token_invariance (seq cigar mdA mdB : List Char)
    (cfg : HLConfig) (e₁ e₂ : List MDTagEntry)
    (hA : parseMDTag mdA = .ok (e₁ ++ zeroMR :: e₂))
    (hB : parseMDTag mdB = .ok (e₁ ++ e₂))
    (hA0 : mdA ≠ []) (hB0 : mdB ≠ []) :
    samToPairwise seq cigar mdA cfg = samToPairwise seq cigar mdB cfg :=
  samToPairwise_ins seq cigar mdA mdB cfg e₁ e₂ hA hB hA0 hB0

/-- Witness for C10: MD `0A1` and MD `A1` (explicit `0` token removed)
give identical results on a concrete record. -/
theorem C10_zero_token_invariance_witness :
    samToPairwise ['G', 'G'] ['2', 'M'] ['0', 'A', '1'] ⟨false, 'C', 'T', '.'⟩
      = samToPairwise ['G', 'G'] ['2', 'M'] ['A', '1'] ⟨false, 'C', 'T', '.'⟩ :=
  C10_zero_token_invariance ['G', 'G'] ['2', 'M'] ['0', 'A', '1'] ['A', '1']
    ⟨false, 'C', 'T', '.'⟩ [] [⟨0, ['A'], false⟩, ⟨1, [], false⟩]
    (by decide) (by decide) (by decide) (by decide)
